import Mathlib

/-!
Verification of the semantic binder for the block-structured declarative
configuration language (the HCL2 `model` package): name declaration and
scope resolution, the node bind state machine with cycle detection,
traversal type resolution, expression binding (object constructors and
function calls), resource token decomposition, and the source-order
comparator used to order nodes.

Shallow embedding conventions:
  * Go maps with string keys are modelled as association lists whose lookup
    finds the first entry; where the code relies on insertion-time
    uniqueness (the scope tables) the two agree.
  * Go slices are lists; an out-of-bounds index (a Go runtime error) is
    modelled with `List.get?`/`Option`, `none` marking the aborted run.
  * The in-place `bindState` mutation on nodes is modelled as an explicit
    state `σ : Nat → Nat` from node id to state, with the source's own
    numeric encoding (`unbound = 0`, `binding = 1`, `bound = 2`).
  * The unbounded recursion of `bindNode` is embedded with fuel:
    `none` is the out-of-fuel marker, and termination of the Go code is the
    theorem that a concrete fuel (one more than the node count) returns
    `some`.
  * Diagnostics (the missing `diagnostics.go` constructors, referenced but
    not among the sources) are modelled as tagged variants carrying the
    payload each call site passes.
-/

namespace PulumiHcl2

/-- Diagnostics, one tagged variant per constructor the binder calls.
Modelled from the spec: structured, recoverable, accumulated in order; the
payload kept is the datum each call site passes (name, token, node id). -/
inductive Diag where
  | circularReference (node : Nat)
  | notYetImplemented (node : Nat)
  | alreadyDeclared (name : String)
  | malformedToken (tok : String)
  | unknownPackage (pkg : String)
  | unknownResourceType (tok : String)
  | unknownFunction (name : String)
  | missingRequiredArgument (param : String)
  | extraArguments (expected actual : Nat)
  | exprNotAssignable
  | objectKeysMustBeStrings
  | unsupportedLiteralValue
  | unsupportedMapKey
  | unsupportedArrayIndex
  | unsupportedObjectProperty
  | unknownObjectProperty (name : String)
  | unsupportedReceiverType
  | unsupportedIndexKey
  | undefinedVariable
  | labelsError (msg : String)
  | notYetImplementedExpr
  deriving DecidableEq, Repr

/-! ## Resource block labels (`declareNodes` / `getResourceToken`)

`declareNodes` (the `"resource"` arm) appends a wrong-label-count
diagnostic when `len(block.Labels) != 2` and then reads `block.Labels[0]`
unconditionally; `getResourceToken` reads `node.Syntax.Labels[1]`
unconditionally.  The unguarded index is modelled with `List.get?`:
a `none` result is the out-of-bounds access (a Go runtime error), a `some`
result carries the diagnostics accumulated so far together with the label
read. -/

/-- The `"resource"` arm of `declareNodes`: diagnose a wrong label count,
then read `block.Labels[0]` (the resource's name) regardless. -/
def declareResourceLabels (labels : List String) : Option (List Diag × String) :=
  let ds : List Diag :=
    if labels.length ≠ 2 then
      [Diag.labelsError "resource variables must have exactly two labels"]
    else []
  (labels.get? 0).map fun l0 => (ds, l0)

/-- `getResourceToken`: read `node.Syntax.Labels[1]` (the token label),
with no preceding length check. -/
def getResourceTokenLabel (labels : List String) : Option String :=
  labels.get? 1

/-! ## Token decomposition (`decomposeToken`) -/

/-- Go's `strings.Split(tok, ":")`, computed over the character list (which
the kernel can evaluate): the colon-separated components of a token, one
more component than there are colons. -/
def splitChars : List Char → List (List Char)
  | [] => [[]]
  | c :: rest =>
    let r := splitChars rest
    if c = ':' then [] :: r
    else
      match r with
      | [] => [[c]]
      | s :: ss => (c :: s) :: ss

/-- `strings.Split(tok, ":")`. -/
def splitOnColon (tok : String) : List String :=
  (splitChars tok.data).map fun cs => String.mk cs

/-- `decomposeToken`: split on `":"`; anything but exactly three components
is a malformed-token diagnostic with empty components returned. -/
def decomposeToken (tok : String) : (String × String × String) × List Diag :=
  match splitOnColon tok with
  | [a, b, c] => ((a, b, c), [])
  | _ => (("", "", ""), [Diag.malformedToken tok])

/-- `hcl.Diagnostics.HasErrors` for the modelled diagnostics: every
constructor the binder uses is built by `errorf` (severity error), so a
non-empty list has errors. -/
def hasErrors (ds : List Diag) : Bool :=
  !ds.isEmpty

/-! ## Source-order comparator (`sourceOrderNodes`) -/

/-- The part of `hcl.Range` the comparator of `sourceOrderNodes` reads:
the file name and the starting byte offset of the node's syntax. -/
structure SrcRange where
  filename : String
  startByte : Nat
  deriving DecidableEq, Repr

/-- Go's `<` on strings: lexicographic comparison, computed on the
character lists (byte order and character order agree on ASCII file
names). -/
def charListLt : List Char → List Char → Bool
  | [], [] => false
  | [], _ :: _ => true
  | _ :: _, [] => false
  | a :: as, b :: bs =>
    if a < b then true else if b < a then false else charListLt as bs

/-- Lexicographic string comparison (Go's `<`). -/
def stringLt (a b : String) : Bool :=
  charListLt a.data b.data

/-- The `less` closure passed to `sort.Slice` by `sourceOrderNodes`:
`ir.Filename < jr.Filename || ir.Start.Byte < jr.Start.Byte`. -/
def sourceOrderNodesLess (ir jr : SrcRange) : Bool :=
  stringLt ir.filename jr.filename || ir.startByte < jr.startByte

/-- Go's `sort.Slice` on a two-element slice (the insertion-sort range):
swap the elements exactly when `less(a[1], a[0])`. -/
def sortPair (less : SrcRange → SrcRange → Bool) (l : List SrcRange) :
    List SrcRange :=
  match l with
  | [x, y] => if less y x then [y, x] else [x, y]
  | _ => l

/-! ## Scopes (`scope`, `scopes`) -/

/-- A `scope`: one name → node table.  Node identity is a numeric id. -/
abbrev Scope := List (String × Nat)

/-- `scope.bindReference`: map lookup. -/
def scopeBindReference (s : Scope) (name : String) : Option Nat :=
  (s.find? fun e => e.1 = name).map fun e => e.2

/-- `scope.define`: refuse a name that already exists, add it otherwise.
Returns the updated table and the source's boolean. -/
def scopeDefine (s : Scope) (name : String) (node : Nat) : Scope × Bool :=
  if (scopeBindReference s name).isSome then (s, false)
  else (s ++ [(name, node)], true)

/-- `scopes.push` appends a fresh table at the end of the stack, so the
element at index 0 is the first-pushed (root) table and the last element is
the most recently pushed one. -/
def scopesPush (stack : List Scope) : List Scope :=
  stack ++ [[]]

/-- `scopes.bindReference`: `for _, s := range s.stack` — the tables are
consulted from index 0 (the first-pushed, root table) upward. -/
def scopesBindReference (stack : List Scope) (name : String) : Option Nat :=
  match stack with
  | [] => none
  | s :: rest =>
    match scopeBindReference s name with
    | some d => some d
    | none => scopesBindReference rest name

/-! ## Declare phase (`declareNode`, the loop of `declareNodes`)

A file's top-level declarations are taken in source order as a list of
(name, node id) pairs; `declareNode` tries `root.define` and reports
`"%q already declared"` when it fails. -/

/-- `declareNode`: define in the root scope, one diagnostic on failure. -/
def declareNode (root : Scope) (name : String) (node : Nat) :
    Scope × List Diag :=
  match scopeDefine root name node with
  | (root', true) => (root', [])
  | (root', false) => (root', [Diag.alreadyDeclared name])

/-- The declaration loop: fold `declareNode` over the declarations in
source order, accumulating diagnostics in order. -/
def declareAll (root : Scope) : List (String × Nat) → Scope × List Diag
  | [] => (root, [])
  | (name, node) :: rest =>
    let p := declareNode root name node
    let q := declareAll p.1 rest
    (q.1, p.2 ++ q.2)

/-- The ids that reach the `Program`'s node list: the values of the root
scope (the binder collects `b.root`'s values; a dropped duplicate is absent
from the table and hence from the list). -/
def programNodeIds (root : Scope) : List Nat :=
  root.map fun e => e.2

/-! ## The node bind state machine (`bindNode`)

Node identity is a numeric id; the mutable tri-state marker on each node is
the explicit state `σ : Nat → Nat` with the source's own numeric values
(`unbound = 0`, `binding = 1`, `bound = 2`).  The dependency graph computed
by `getDependencies` enters as a function `deps : Nat → List Nat` (for each
node, its direct dependencies in the source order `getDependencies`
returns), and the node-kind-specific binder dispatched after the
dependencies (`bindConfigVariable`/`bindLocalVariable`/`bindResource`/
`bindOutputVariable`, each of which only returns diagnostics) enters as
`body : Nat → List Diag`.  Fuel bounds the recursion depth; `none` is the
out-of-fuel marker. -/

/-- `unbound` of the source (`bindState` value 0). -/
def unbound : Nat := 0

/-- `binding` of the source (`bindState` value 1). -/
def binding : Nat := 1

/-- `bound` of the source (`bindState` value 2). -/
def bound : Nat := 2

/-- The bind state: node id → `bindState`. -/
abbrev BState := Nat → Nat

/-- `node.setState(v)` on node `x`. -/
def setState (σ : BState) (x v : Nat) : BState :=
  fun z => if z = x then v else σ z

theorem setState_same (σ : BState) (x v : Nat) : setState σ x v x = v := by
  simp [setState]

theorem setState_other (σ : BState) (x v z : Nat) (h : z ≠ x) :
    setState σ x v z = σ z := by
  simp [setState, h]

/-- The dependency loop of `bindNode` (`for _, dep := range
b.getDependencies(node)`) and equally the top-level loop of `BindProgram`
(`for _, n := range nodes`), parameterized by the single-node binder `g`:
bind each node in order, threading the state and appending diagnostics. -/
def bindNodeList (g : BState → Nat → Option (BState × List Diag)) :
    BState → List Nat → Option (BState × List Diag)
  | σ, [] => some (σ, [])
  | σ, y :: ys =>
    match g σ y with
    | none => none
    | some (σ1, d1) =>
      match bindNodeList g σ1 ys with
      | none => none
      | some (σ2, d2) => some (σ2, d1 ++ d2)

/-- One step of `bindNode` given the binder `prev` used for the recursive
calls on dependencies:
  * state `binding` — a circular reference: report it and return with the
    state unchanged;
  * state `bound` — already done, no diagnostics;
  * otherwise set the state to `binding`, bind every dependency in order,
    dispatch to the node-kind-specific binder, and (the deferred function)
    set the state to `bound`. -/
def bindNodeStep (deps : Nat → List Nat) (body : Nat → List Diag)
    (prev : BState → Nat → Option (BState × List Diag))
    (σ : BState) (x : Nat) : Option (BState × List Diag) :=
  if σ x = binding then some (σ, [Diag.circularReference x])
  else if σ x = bound then some (σ, [])
  else
    match bindNodeList prev (setState σ x binding) (deps x) with
    | none => none
    | some (σ2, ds) => some (setState σ2 x bound, ds ++ body x)

/-- `bindNode` with fuel: the source's unboundedly recursive function,
embedded by structural recursion on the fuel. -/
def bindNode (deps : Nat → List Nat) (body : Nat → List Diag) :
    Nat → BState → Nat → Option (BState × List Diag)
  | 0, _, _ => none
  | fuel + 1, σ, x => bindNodeStep deps body (bindNode deps body fuel) σ x

/-- The bind loop of `BindProgram`: bind every declared node in order,
starting from the all-`unbound` state. -/
def bindProgramNodes (deps : Nat → List Nat) (body : Nat → List Diag)
    (fuel : Nat) (nodes : List Nat) : Option (BState × List Diag) :=
  bindNodeList (bindNode deps body fuel) (fun _ => unbound) nodes

/-- State of node `x` in a bind result (`none` when the run ran out of
fuel). -/
def stateOf (r : Option (BState × List Diag)) (x : Nat) : Option Nat :=
  r.map fun p => p.1 x

/-- Diagnostics of a bind result. -/
def diagsOf (r : Option (BState × List Diag)) : Option (List Diag) :=
  r.map fun p => p.2

/-- Whether a diagnostic list contains a circular-reference diagnostic. -/
def HasCirc (d : List Diag) : Prop :=
  ∃ x, Diag.circularReference x ∈ d

section BindMachine

variable (deps : Nat → List Nat) (body : Nat → List Diag)

theorem bindNode_zero (σ : BState) (x : Nat) :
    bindNode deps body 0 σ x = none := rfl

theorem bindNode_succ (f : Nat) (σ : BState) (x : Nat) :
    bindNode deps body (f + 1) σ x =
      bindNodeStep deps body (bindNode deps body f) σ x := rfl

/-- Inversion for a successful step of the bind loop. -/
theorem bindNodeList_cons_inv {g : BState → Nat → Option (BState × List Diag)}
    {σ : BState} {y : Nat} {ys : List Nat} {r : BState × List Diag}
    (h : bindNodeList g σ (y :: ys) = some r) :
    ∃ p q, g σ y = some p ∧ bindNodeList g p.1 ys = some q ∧
      r.1 = q.1 ∧ r.2 = p.2 ++ q.2 := by
  simp only [bindNodeList] at h
  cases hy : g σ y with
  | none => rw [hy] at h; cases h
  | some p =>
    obtain ⟨σ1, d1⟩ := p
    rw [hy] at h
    dsimp only at h
    cases hrest : bindNodeList g σ1 ys with
    | none => rw [hrest] at h; cases h
    | some q =>
      obtain ⟨σ2, d2⟩ := q
      rw [hrest] at h
      dsimp only at h
      cases h
      exact ⟨(σ1, d1), (σ2, d2), rfl, hrest, rfl, rfl⟩

/-- Inversion for a successful `bindNode` call: the circular-reference
return, the already-bound return, or the full unbound path. -/
theorem bindNode_some_inv {f : Nat} {σ : BState} {x : Nat}
    {r : BState × List Diag} (h : bindNode deps body f σ x = some r) :
    (σ x = binding ∧ r = (σ, [Diag.circularReference x]))
    ∨ (σ x ≠ binding ∧ σ x = bound ∧ r = (σ, []))
    ∨ (σ x ≠ binding ∧ σ x ≠ bound ∧ ∃ g q, f = g + 1 ∧
        bindNodeList (bindNode deps body g) (setState σ x binding) (deps x) = some q ∧
        r.1 = setState q.1 x bound ∧ r.2 = q.2 ++ body x) := by
  cases f with
  | zero => cases h
  | succ g =>
    rw [bindNode_succ, bindNodeStep] at h
    by_cases h1 : σ x = binding
    · rw [if_pos h1] at h
      cases h
      exact Or.inl ⟨h1, rfl⟩
    · rw [if_neg h1] at h
      by_cases h2 : σ x = bound
      · rw [if_pos h2] at h
        cases h
        exact Or.inr (Or.inl ⟨h1, h2, rfl⟩)
      · rw [if_neg h2] at h
        cases hseq : bindNodeList (bindNode deps body g) (setState σ x binding) (deps x) with
        | none => rw [hseq] at h; cases h
        | some q =>
          obtain ⟨σ2, ds⟩ := q
          rw [hseq] at h
          dsimp only at h
          cases h
          exact Or.inr (Or.inr ⟨h1, h2, g, (σ2, ds), rfl, hseq, rfl, rfl⟩)

/-- Chain a per-call state relation through the bind loop. -/
theorem bindNodeList_rel {g : BState → Nat → Option (BState × List Diag)}
    (P : BState → BState → Prop) (hrefl : ∀ σ, P σ σ)
    (htrans : ∀ {a b c}, P a b → P b c → P a c)
    (hg : ∀ σ y r, g σ y = some r → P σ r.1) :
    ∀ (ys : List Nat) (σ : BState) (r : BState × List Diag),
      bindNodeList g σ ys = some r → P σ r.1 := by
  intro ys
  induction ys with
  | nil =>
    intro σ r h
    simp only [bindNodeList] at h
    cases h
    exact hrefl σ
  | cons y ys ih =>
    intro σ r h
    obtain ⟨p, q, hy, hrest, hr1, _⟩ := bindNodeList_cons_inv h
    rw [hr1]
    exact htrans (hg σ y p hy) (ih p.1 q hrest)

/-- Across one completed `bindNode` call a node's state is unchanged, or
the node went to `bound` from a state that was neither `binding` nor
`bound` (every other fact about state evolution follows from this). -/
theorem bindNode_strong :
    ∀ (f : Nat) (σ : BState) (x : Nat) (r : BState × List Diag),
      bindNode deps body f σ x = some r →
      ∀ z, r.1 z = σ z ∨ (σ z ≠ binding ∧ σ z ≠ bound ∧ r.1 z = bound) := by
  intro f
  induction f with
  | zero => intro σ x r h; cases h
  | succ g ih =>
    intro σ x r h z
    rcases bindNode_some_inv deps body h with
      ⟨_, rfl⟩ | ⟨_, _, rfl⟩ | ⟨h1, h2, g', q, hg, hseq, hr1, _⟩
    · exact Or.inl rfl
    · exact Or.inl rfl
    · have hg' : g' = g := by omega
      subst hg'
      have hlist := bindNodeList_rel
        (P := fun a b => ∀ z, b z = a z ∨ (a z ≠ binding ∧ a z ≠ bound ∧ b z = bound))
        (fun _ _ => Or.inl rfl)
        (fun hab hbc z => by
          rcases hbc z with h' | ⟨hb1, hb2, hb3⟩
          · rw [h']; exact hab z
          · rcases hab z with h'' | ⟨ha1, ha2, ha3⟩
            · exact Or.inr ⟨h'' ▸ hb1, h'' ▸ hb2, hb3⟩
            · exact absurd ha3 hb2)
        (fun σ' y r' h' => ih σ' y r' h')
        (deps x) (setState σ x binding) q hseq
      rw [hr1]
      by_cases hzx : z = x
      · subst hzx
        exact Or.inr ⟨h1, h2, by simp [setState]⟩
      · rw [setState_other _ _ _ _ hzx]
        rcases hlist z with h' | ⟨hb1, hb2, hb3⟩
        · rw [h', setState_other _ _ _ _ hzx]
          exact Or.inl rfl
        · rw [setState_other _ _ _ _ hzx] at hb1 hb2
          exact Or.inr ⟨hb1, hb2, hb3⟩

/-- The bind-loop version of `bindNode_strong`. -/
theorem bindNodeList_strong (f : Nat) :
    ∀ (ys : List Nat) (σ : BState) (r : BState × List Diag),
      bindNodeList (bindNode deps body f) σ ys = some r →
      ∀ z, r.1 z = σ z ∨ (σ z ≠ binding ∧ σ z ≠ bound ∧ r.1 z = bound) :=
  bindNodeList_rel
    (P := fun a b => ∀ z, b z = a z ∨ (a z ≠ binding ∧ a z ≠ bound ∧ b z = bound))
    (fun _ _ => Or.inl rfl)
    (fun hab hbc z => by
      rcases hbc z with h' | ⟨hb1, hb2, hb3⟩
      · rw [h']; exact hab z
      · rcases hab z with h'' | ⟨ha1, ha2, ha3⟩
        · exact Or.inr ⟨h'' ▸ hb1, h'' ▸ hb2, hb3⟩
        · exact absurd ha3 hb2)
    (fun σ y r h => bindNode_strong deps body f σ y r h)

/-- A node whose state stays `binding` across a call (from
`bindNode_strong`). -/
theorem bindNode_keep_binding {f : Nat} {σ : BState} {x : Nat}
    {r : BState × List Diag} (h : bindNode deps body f σ x = some r)
    {z : Nat} (hz : σ z = binding) : r.1 z = binding := by
  rcases bindNode_strong deps body f σ x r h z with h' | ⟨h1, _, _⟩
  · rw [h', hz]
  · exact absurd hz h1

/-- Bind-loop version of `bindNode_keep_binding`. -/
theorem bindNodeList_keep_binding {f : Nat} {ys : List Nat} {σ : BState}
    {r : BState × List Diag}
    (h : bindNodeList (bindNode deps body f) σ ys = some r)
    {z : Nat} (hz : σ z = binding) : r.1 z = binding := by
  rcases bindNodeList_strong deps body f ys σ r h z with h' | ⟨h1, _, _⟩
  · rw [h', hz]
  · exact absurd hz h1

/-- A completed `bindNode` call on a node not in state `binding` leaves the
node `bound` (the deferred `node.setState(bound)`). -/
theorem bindNode_own {f : Nat} {σ : BState} {x : Nat}
    {r : BState × List Diag} (h : bindNode deps body f σ x = some r)
    (hx : σ x ≠ binding) : r.1 x = bound := by
  rcases bindNode_some_inv deps body h with
    ⟨h1, _⟩ | ⟨_, h2, rfl⟩ | ⟨_, _, _, _, _, _, hr1, _⟩
  · exact absurd h1 hx
  · exact h2
  · rw [hr1]; simp [setState]

/-- After the bind loop every listed node has left the `unbound` state. -/
theorem bindNodeList_all_done (f : Nat) :
    ∀ (ys : List Nat) (σ : BState) (r : BState × List Diag),
      bindNodeList (bindNode deps body f) σ ys = some r →
      ∀ u ∈ ys, r.1 u ≠ unbound := by
  intro ys
  induction ys with
  | nil => intro σ r _ u hu; cases hu
  | cons y ys ih =>
    intro σ r h u hu
    obtain ⟨p, q, hy, hrest, hr1, _⟩ := bindNodeList_cons_inv h
    rcases List.mem_cons.mp hu with rfl | hu'
    · by_cases h1 : σ u = binding
      · have hp := bindNode_keep_binding deps body hy h1
        have hq := bindNodeList_keep_binding deps body hrest hp
        rw [hr1, hq]; simp [binding, unbound]
      · have hp := bindNode_own deps body hy h1
        rw [hr1]
        rcases bindNodeList_strong deps body f ys p.1 q hrest u with h' | ⟨_, _, h3⟩
        · rw [h', hp]; simp [bound, unbound]
        · rw [h3]; simp [bound, unbound]
    · rw [hr1]
      exact ih p.1 q hrest u hu'

/-- A node that is `binding` when the bind loop reaches it draws a
circular-reference diagnostic naming it. -/
theorem bindNodeList_circ_of_binding (f : Nat) :
    ∀ (ys : List Nat) (σ : BState) (r : BState × List Diag),
      bindNodeList (bindNode deps body f) σ ys = some r →
      ∀ u ∈ ys, σ u = binding → Diag.circularReference u ∈ r.2 := by
  intro ys
  induction ys with
  | nil => intro σ r _ u hu; cases hu
  | cons y ys ih =>
    intro σ r h u hu hub
    obtain ⟨p, q, hy, hrest, _, hr2⟩ := bindNodeList_cons_inv h
    rw [hr2]
    rcases List.mem_cons.mp hu with rfl | hu'
    · rcases bindNode_some_inv deps body hy with
        ⟨_, rfl⟩ | ⟨h1, _, _⟩ | ⟨h1, _, _⟩
      · simp
      · exact absurd hub h1
      · exact absurd hub h1
    · have hp := bindNode_keep_binding deps body hy hub
      exact List.mem_append_right _ (ih p.1 q hrest u hu' hp)

/-- Inversion for the empty bind loop. -/
theorem bindNodeList_nil_inv {g : BState → Nat → Option (BState × List Diag)}
    {σ : BState} {r : BState × List Diag}
    (h : bindNodeList g σ [] = some r) : r = (σ, []) := by
  simp only [bindNodeList] at h
  cases h
  rfl

/-- Statement: when a call takes `t` from `unbound` to `bound`, every
dependency of `t` has left `unbound` (its own frame ran inside). -/
def DepDoneNode (f : Nat) : Prop :=
  ∀ (σ : BState) (x : Nat) (r : BState × List Diag),
    bindNode deps body f σ x = some r →
    ∀ t, σ t = unbound → r.1 t = bound → ∀ u ∈ deps t, r.1 u ≠ unbound

/-- The bind-loop transfer of `DepDoneNode`. -/
theorem seq_dep_done_of (f : Nat) (hnode : DepDoneNode deps body f) :
    ∀ (ys : List Nat) (σ : BState) (r : BState × List Diag),
      bindNodeList (bindNode deps body f) σ ys = some r →
      ∀ t, σ t = unbound → r.1 t = bound → ∀ u ∈ deps t, r.1 u ≠ unbound := by
  intro ys
  induction ys with
  | nil =>
    intro σ r h t ht hrt
    rw [bindNodeList_nil_inv h] at hrt
    simp [ht, unbound, bound] at hrt
  | cons y ys ih =>
    intro σ r h t ht hrt u hu
    obtain ⟨p, q, hy, hrest, hr1, _⟩ := bindNodeList_cons_inv h
    rw [hr1] at hrt ⊢
    rcases bindNode_strong deps body f σ y p hy t with h' | ⟨_, _, h3⟩
    · exact ih p.1 q hrest t (h' ▸ ht) hrt u hu
    · have hstep := hnode σ y p hy t ht h3 u hu
      rcases bindNodeList_strong deps body f ys p.1 q hrest u with h'' | ⟨_, _, h4⟩
      · rw [h'']; exact hstep
      · rw [h4]; simp [bound, unbound]

/-- When a completed call takes `t` from `unbound` to `bound`, every
dependency of `t` ends the call out of the `unbound` state. -/
theorem bindNode_dep_done : ∀ f, DepDoneNode deps body f := by
  intro f
  induction f with
  | zero => intro σ x r h; cases h
  | succ g ih =>
    intro σ x r h t ht hrt u hu
    rcases bindNode_some_inv deps body h with
      ⟨_, rfl⟩ | ⟨_, _, rfl⟩ | ⟨h1, h2, g', q, hg, hseq, hr1, _⟩
    · simp [ht, unbound, bound] at hrt
    · simp [ht, unbound, bound] at hrt
    · have hg2 : g = g' := by omega
      subst hg2
      rw [hr1] at hrt ⊢
      by_cases htx : t = x
      · subst htx
        have hdone := bindNodeList_all_done deps body g (deps t)
          (setState σ t binding) q hseq u hu
        by_cases hux : u = t
        · subst hux; simp [setState, bound, unbound]
        · rw [setState_other _ _ _ _ hux]; exact hdone
      · rw [setState_other _ _ _ _ htx] at hrt
        have h1t : setState σ x binding t = unbound := by
          rw [setState_other _ _ _ _ htx]; exact ht
        have := seq_dep_done_of deps body g ih (deps x)
          (setState σ x binding) q hseq t h1t hrt u hu
        by_cases hux : u = x
        · subst hux; simp [setState, bound, unbound]
        · rw [setState_other _ _ _ _ hux]; exact this

/-- `DepDoneNode` for the bind loop itself. -/
theorem bindNodeList_dep_done (f : Nat) :
    ∀ (ys : List Nat) (σ : BState) (r : BState × List Diag),
      bindNodeList (bindNode deps body f) σ ys = some r →
      ∀ t, σ t = unbound → r.1 t = bound → ∀ u ∈ deps t, r.1 u ≠ unbound :=
  seq_dep_done_of deps body f (bindNode_dep_done deps body f)

/-- Statement: a call that takes `t` from `unbound` to `bound` while a
dependency `u` of `t` is `binding` throughout reports a circular
reference at `u` (the frame of `t` re-enters `bindNode` on `u`). -/
def CircOnBoundNode (f : Nat) : Prop :=
  ∀ (σ : BState) (y : Nat) (r : BState × List Diag),
    bindNode deps body f σ y = some r →
    ∀ t u, σ t = unbound → r.1 t = bound → u ∈ deps t → σ u = binding →
      Diag.circularReference u ∈ r.2

/-- Bind-loop transfer of `CircOnBoundNode`. -/
theorem seq_circ_on_bound_of (f : Nat) (hnode : CircOnBoundNode deps body f) :
    ∀ (ys : List Nat) (σ : BState) (r : BState × List Diag),
      bindNodeList (bindNode deps body f) σ ys = some r →
      ∀ t u, σ t = unbound → r.1 t = bound → u ∈ deps t → σ u = binding →
        Diag.circularReference u ∈ r.2 := by
  intro ys
  induction ys with
  | nil =>
    intro σ r h t u ht hrt
    rw [bindNodeList_nil_inv h] at hrt
    simp [ht, unbound, bound] at hrt
  | cons y ys ih =>
    intro σ r h t u ht hrt hu hub
    obtain ⟨p, q, hy, hrest, hr1, hr2⟩ := bindNodeList_cons_inv h
    rw [hr1] at hrt
    rw [hr2]
    rcases bindNode_strong deps body f σ y p hy t with h' | ⟨_, _, h3⟩
    · have hpu := bindNode_keep_binding deps body hy hub
      exact List.mem_append_right _ (ih p.1 q hrest t u (h' ▸ ht) hrt hu hpu)
    · exact List.mem_append_left _ (hnode σ y p hy t u ht h3 hu hub)

/-- A call that takes `t` from `unbound` to `bound` while `t` has a
dependency in state `binding` reports a circular reference there. -/
theorem bindNode_circ_on_bound : ∀ f, CircOnBoundNode deps body f := by
  intro f
  induction f with
  | zero => intro σ y r h; cases h
  | succ g ih =>
    intro σ y r h t u ht hrt hu hub
    rcases bindNode_some_inv deps body h with
      ⟨_, rfl⟩ | ⟨_, _, rfl⟩ | ⟨h1, h2, g', q, hg, hseq, hr1, hr2⟩
    · simp [ht, unbound, bound] at hrt
    · simp [ht, unbound, bound] at hrt
    · have hg2 : g = g' := by omega
      subst hg2
      have hux : u ≠ y := fun he => h1 (he ▸ hub)
      have h1u : setState σ y binding u = binding := by
        rw [setState_other _ _ _ _ hux]; exact hub
      rw [hr2]
      by_cases hty : t = y
      · subst hty
        exact List.mem_append_left _
          (bindNodeList_circ_of_binding deps body g (deps t)
            (setState σ t binding) q hseq u hu h1u)
      · rw [hr1, setState_other _ _ _ _ hty] at hrt
        have h1t : setState σ y binding t = unbound := by
          rw [setState_other _ _ _ _ hty]; exact ht
        exact List.mem_append_left _
          (seq_circ_on_bound_of deps body g ih (deps y)
            (setState σ y binding) q hseq t u h1t hrt hu h1u)

theorem hasCirc_append_left {d d' : List Diag} (h : HasCirc d) :
    HasCirc (d ++ d') :=
  let ⟨x, hx⟩ := h; ⟨x, List.mem_append_left _ hx⟩

theorem hasCirc_append_right {d d' : List Diag} (h : HasCirc d') :
    HasCirc (d ++ d') :=
  let ⟨x, hx⟩ := h; ⟨x, List.mem_append_right _ hx⟩

/-- A dependency path from `t` through `unbound` nodes to a `binding` node
of the active stack `S` (the ghost stack of the invariant proofs; the
source's `b.stack` serves only diagnostics). -/
inductive Reaches (S : List Nat) (σ : BState) : Nat → Prop where
  | base {t : Nat} : σ t = binding → t ∈ S → Reaches S σ t
  | step {t u : Nat} : σ t = unbound → u ∈ deps t → Reaches S σ u →
      Reaches S σ t

/-- Pushing a frame preserves reachability: the freshly `binding` node cuts
any path through it into a shorter one ending at itself. -/
theorem Reaches.push {S : List Nat} {σ : BState} {t y : Nat}
    (h : Reaches deps S σ t) :
    Reaches deps (y :: S) (setState σ y binding) t := by
  induction h with
  | base hb hm =>
    rename_i t'
    by_cases hty : t' = y
    · subst hty
      exact Reaches.base (by simp [setState]) (List.mem_cons_self _ _)
    · exact Reaches.base (by rw [setState_other _ _ _ _ hty]; exact hb)
        (List.mem_cons_of_mem _ hm)
  | step h0 hu hres ih =>
    rename_i t' u'
    by_cases hty : t' = y
    · subst hty
      exact Reaches.base (by simp [setState]) (List.mem_cons_self _ _)
    · exact Reaches.step (by rw [setState_other _ _ _ _ hty]; exact h0) hu ih

/-- Statement: a completed call either emitted a circular-reference
diagnostic or preserved every reachability fact. -/
def PresStmt (f : Nat) : Prop :=
  ∀ (σ : BState) (S : List Nat) (x : Nat) (r : BState × List Diag),
    (∀ z ∈ S, σ z = binding) →
    bindNode deps body f σ x = some r →
    ∀ t, Reaches deps S σ t → HasCirc r.2 ∨ Reaches deps S r.1 t

/-- Statement: the bind loop, run over a list containing a node from which
a `binding` stack node is reachable, emits a circular-reference
diagnostic. -/
def EmitStmt (f : Nat) : Prop :=
  ∀ (σ : BState) (S : List Nat) (ys : List Nat) (r : BState × List Diag)
    (t : Nat),
    (∀ z ∈ S, σ z = binding) → Reaches deps S σ t → t ∈ ys →
    bindNodeList (bindNode deps body f) σ ys = some r → HasCirc r.2

theorem emit_aux {g : Nat} (Pg1 : PresStmt deps body (g + 1))
    (Eg : EmitStmt deps body g) : EmitStmt deps body (g + 1) := by
  intro σ0 S ys
  revert σ0
  induction ys with
  | nil => intro σ0 r t _ _ hmem; cases hmem
  | cons y ys ih =>
    intro σ r t hInv hre hmem h
    obtain ⟨p, q, hy, hrest, _, hr2⟩ := bindNodeList_cons_inv h
    rcases List.mem_cons.mp hmem with rfl | hmem'
    · cases hre with
      | base hb _ =>
        rcases bindNode_some_inv deps body hy with
          ⟨_, rfl⟩ | ⟨hn, _, _⟩ | ⟨hn, _, _⟩
        · rw [hr2]
          exact hasCirc_append_left ⟨t, by simp⟩
        · exact absurd hb hn
        · exact absurd hb hn
      | step h0 hu hres =>
        rename_i u'
        rcases bindNode_some_inv deps body hy with
          ⟨hb, _⟩ | ⟨_, hb, _⟩ | ⟨h1, h2, g', q', hg, hseq, _, hp2⟩
        · rw [h0] at hb; simp [unbound, binding] at hb
        · rw [h0] at hb; simp [unbound, bound] at hb
        · have hg2 : g = g' := by omega
          subst hg2
          have hInv1 : ∀ z ∈ t :: S, setState σ t binding z = binding := by
            intro z hz
            rcases List.mem_cons.mp hz with rfl | hz'
            · simp [setState]
            · by_cases hzt : z = t
              · subst hzt; simp [setState]
              · rw [setState_other _ _ _ _ hzt]; exact hInv z hz'
          have hupd := Reaches.push deps hres (y := t)
          have hq' := Eg (setState σ t binding) (t :: S) (deps t) q' u'
            hInv1 hupd hu hseq
          rw [hr2, hp2]
          exact hasCirc_append_left (hasCirc_append_left hq')
    · have hstep := Pg1 σ S y p hInv hy t hre
      rcases hstep with hc | hre'
      · rw [hr2]; exact hasCirc_append_left hc
      · have hInv' : ∀ z ∈ S, p.1 z = binding := fun z hz =>
          bindNode_keep_binding deps body hy (hInv z hz)
        have := ih p.1 q t hInv' hre' hmem' hrest
        rw [hr2]; exact hasCirc_append_right this

/-- The preservation/emission pair, by induction on the fuel. -/
theorem pres_emit : ∀ f, PresStmt deps body f ∧ EmitStmt deps body f := by
  intro f
  induction f with
  | zero =>
    constructor
    · intro σ S x r _ h; cases h
    · intro σ S ys r t _ _ hmem h
      cases ys with
      | nil => cases hmem
      | cons y ys =>
        obtain ⟨p, q, hy, _, _, _⟩ := bindNodeList_cons_inv h
        cases hy
  | succ g ih =>
    obtain ⟨Pg, Eg⟩ := ih
    have Pg1 : PresStmt deps body (g + 1) := by
      intro σ S x r hInv h t hre
      rcases bindNode_some_inv deps body h with
        ⟨hb, rfl⟩ | ⟨_, _, rfl⟩ | ⟨h1, h2, g', q, hg, hseq, hr1, hr2⟩
      · exact Or.inl ⟨x, by simp⟩
      · exact Or.inr hre
      · have hg2 : g = g' := by omega
        subst hg2
        induction hre with
        | base hb hm =>
          rename_i t'
          right
          have htx : t' ≠ x := fun he => h1 (he ▸ hb)
          have h1t : setState σ x binding t' = binding := by
            rw [setState_other _ _ _ _ htx]; exact hb
          refine Reaches.base ?_ hm
          rw [hr1, setState_other _ _ _ _ htx]
          exact bindNodeList_keep_binding deps body hseq h1t
        | step h0 hu hres ihre =>
          rename_i t' u'
          by_cases htx : t' = x
          · subst htx
            left
            have hupd := Reaches.push deps hres (y := t')
            have hInv1 : ∀ z ∈ t' :: S, setState σ t' binding z = binding := by
              intro z hz
              rcases List.mem_cons.mp hz with rfl | hz'
              · simp [setState]
              · by_cases hzt : z = t'
                · subst hzt; simp [setState]
                · rw [setState_other _ _ _ _ hzt]; exact hInv z hz'
            have hq := Eg (setState σ t' binding) (t' :: S) (deps t') q u'
              hInv1 hupd hu hseq
            rw [hr2]
            exact hasCirc_append_left hq
          · rcases ihre with hc | hru
            · exact Or.inl hc
            · have hq1t : r.1 t' = q.1 t' := by
                rw [hr1, setState_other _ _ _ _ htx]
              have h1t : setState σ x binding t' = unbound := by
                rw [setState_other _ _ _ _ htx]; exact h0
              rcases bindNodeList_strong deps body g (deps x) _ q hseq t' with
                he | ⟨_, _, hb2⟩
              · right
                refine Reaches.step ?_ hu hru
                rw [hq1t, he, h1t]
              · cases hru with
                | base hub hum =>
                  left
                  have hσu : σ u' = binding := hInv u' hum
                  have huxx : u' ≠ x := fun he' => h1 (he' ▸ hσu)
                  have h1u : setState σ x binding u' = binding := by
                    rw [setState_other _ _ _ _ huxx]; exact hσu
                  have hcirc := seq_circ_on_bound_of deps body g
                    (bindNode_circ_on_bound deps body g) (deps x)
                    (setState σ x binding) q hseq t' u' h1t hb2 hu h1u
                  rw [hr2]
                  exact ⟨u', List.mem_append_left _ hcirc⟩
                | step hu0 _ _ =>
                  exfalso
                  have hdd := bindNodeList_dep_done deps body g (deps x)
                    (setState σ x binding) q hseq t' h1t hb2 u' hu
                  have hne : r.1 u' ≠ unbound := by
                    rw [hr1]
                    by_cases hux : u' = x
                    · subst hux; simp [setState, bound, unbound]
                    · rw [setState_other _ _ _ _ hux]; exact hdd
                  exact hne hu0
    exact ⟨Pg1, emit_aux deps body Pg1 Eg⟩

/-- A dependency chain: `IsUChain σ (a₀ :: … :: aₖ) b` says each `aᵢ` is
`unbound`, each `aᵢ₊₁ ∈ deps aᵢ`, and `b ∈ deps aₖ`. -/
def IsUChain (σ : BState) : List Nat → Nat → Prop
  | [], _ => False
  | [a], b => σ a = unbound ∧ b ∈ deps a
  | a :: a' :: rest, b => σ a = unbound ∧ a' ∈ deps a ∧ IsUChain σ (a' :: rest) b

/-- Every node on a chain is `unbound`. -/
theorem chain_states {σ : BState} :
    ∀ {ch : List Nat} {b : Nat}, IsUChain deps σ ch b → ∀ z ∈ ch, σ z = unbound := by
  intro ch
  induction ch with
  | nil => intro b h; cases h
  | cons a rest ih =>
    intro b h z hz
    cases rest with
    | nil =>
      obtain ⟨h0, _⟩ := h
      rcases List.mem_cons.mp hz with rfl | hz'
      · exact h0
      · cases hz'
    | cons a' rest' =>
      obtain ⟨h0, _, hch⟩ := h
      rcases List.mem_cons.mp hz with rfl | hz'
      · exact h0
      · exact ih hch z hz'

/-- Writing a node off the chain leaves the chain intact. -/
theorem chain_setState {σ : BState} {x v : Nat} :
    ∀ {ch : List Nat} {b : Nat}, IsUChain deps σ ch b → x ∉ ch →
      IsUChain deps (setState σ x v) ch b := by
  intro ch
  induction ch with
  | nil => intro b h; cases h
  | cons a rest ih =>
    intro b h hx
    have hax : a ≠ x := fun he => hx (he ▸ List.mem_cons_self _ _)
    cases rest with
    | nil =>
      obtain ⟨h0, hd⟩ := h
      exact ⟨by rw [setState_other _ _ _ _ hax]; exact h0, hd⟩
    | cons a' rest' =>
      obtain ⟨h0, hd, hch⟩ := h
      exact ⟨by rw [setState_other _ _ _ _ hax]; exact h0, hd,
        ih hch (fun hm => hx (List.mem_cons_of_mem _ hm))⟩

/-- Concatenate a chain into `c` with a chain from `c`. -/
theorem chain_join {σ : BState} :
    ∀ {m : List Nat} {c : Nat} {n : List Nat} {b : Nat},
      IsUChain deps σ m c → IsUChain deps σ (c :: n) b →
      IsUChain deps σ (m ++ c :: n) b := by
  intro m
  induction m with
  | nil => intro c n b h; cases h
  | cons a rest ih =>
    intro c n b h hc
    cases rest with
    | nil =>
      obtain ⟨h0, hd⟩ := h
      cases n with
      | nil => exact ⟨h0, hd, hc⟩
      | cons n0 n' => exact ⟨h0, hd, hc⟩
    | cons a' rest' =>
      obtain ⟨h0, hd, hch⟩ := h
      exact ⟨h0, hd, ih hch hc⟩

/-- Split a chain at an occurrence of `x`. -/
theorem chain_split {σ : BState} :
    ∀ {m : List Nat} {x : Nat} {n : List Nat} {b : Nat},
      IsUChain deps σ (m ++ x :: n) b →
      IsUChain deps σ (x :: n) b ∧ (m = [] ∨ IsUChain deps σ m x) := by
  intro m
  induction m with
  | nil => intro x n b h; exact ⟨h, Or.inl rfl⟩
  | cons a rest ih =>
    intro x n b h
    cases rest with
    | nil =>
      obtain ⟨h0, hd, hch⟩ := h
      exact ⟨hch, Or.inr ⟨h0, hd⟩⟩
    | cons a' rest' =>
      obtain ⟨h0, hd, hch⟩ := h
      obtain ⟨h1, h2⟩ := ih (x := x) (n := n) (b := b) hch
      refine ⟨h1, Or.inr ?_⟩
      rcases h2 with h2 | h2'
      · exact absurd h2 (List.cons_ne_nil _ _)
      · exact ⟨h0, hd, h2'⟩

/-- Rotate a cycle so it starts (and ends) at a chosen member. -/
theorem chain_rotate {σ : BState} {a : Nat} {l : List Nat} {x : Nat}
    (h : IsUChain deps σ (a :: l) a) (hx : x ∈ a :: l) :
    ∃ l', IsUChain deps σ (x :: l') x ∧ ∀ z ∈ x :: l', z ∈ a :: l := by
  rcases List.mem_cons.mp hx with rfl | hxl
  · exact ⟨l, h, fun z hz => hz⟩
  · obtain ⟨l1, l2, rfl⟩ := List.append_of_mem hxl
    have hsplit := chain_split deps (m := a :: l1) (x := x) (n := l2) (b := a) h
    obtain ⟨h1, h2⟩ := hsplit
    rcases h2 with h2 | h2
    · cases h2
    · refine ⟨l2 ++ a :: l1, chain_join deps h1 h2, ?_⟩
      intro z hz
      rcases List.mem_cons.mp hz with rfl | hz'
      · exact hx
      · rcases List.mem_append.mp hz' with hz2 | hz1
        · exact List.mem_cons_of_mem _ (List.mem_append_right _ (List.mem_cons_of_mem _ hz2))
        · rcases List.mem_cons.mp hz1 with rfl | hz1'
          · exact List.mem_cons_self _ _
          · exact List.mem_cons_of_mem _ (List.mem_append_left _ hz1')

/-- A chain ending at `x` gives reachability of the stack `[x]` once `x`
is marked `binding`. -/
theorem chain_to_reaches {σ : BState} {x : Nat} :
    ∀ {m : List Nat} {c : Nat}, IsUChain deps σ (c :: m) x →
      Reaches deps [x] (setState σ x binding) c := by
  intro m
  induction m with
  | nil =>
    intro c h
    obtain ⟨h0, hd⟩ := h
    by_cases hcx : c = x
    · subst hcx
      exact Reaches.base (by simp [setState]) (by simp)
    · exact Reaches.step (by rw [setState_other _ _ _ _ hcx]; exact h0) hd
        (Reaches.base (by simp [setState]) (by simp))
  | cons c' rest ih =>
    intro c h
    obtain ⟨h0, hd, hch⟩ := h
    by_cases hcx : c = x
    · subst hcx
      exact Reaches.base (by simp [setState]) (by simp)
    · exact Reaches.step (by rw [setState_other _ _ _ _ hcx]; exact h0) hd (ih hch)

/-- A fully-`unbound` dependency cycle within the node set `L`. -/
def CycIn (σ : BState) (L : List Nat) : Prop :=
  ∃ a l, IsUChain deps σ (a :: l) a ∧ ∀ z ∈ a :: l, z ∈ L

/-- Statement: a call either keeps some fully-unbound cycle alive or has
emitted a circular-reference diagnostic. -/
def CycStmt (f : Nat) : Prop :=
  ∀ (σ : BState) (x : Nat) (r : BState × List Diag) (L : List Nat),
    bindNode deps body f σ x = some r → CycIn deps σ L →
    CycIn deps r.1 L ∨ HasCirc r.2

/-- Bind-loop transfer of `CycStmt`. -/
theorem seq_cyc_of (f : Nat) (hnode : CycStmt deps body f) :
    ∀ (ys : List Nat) (σ : BState) (r : BState × List Diag) (L : List Nat),
      bindNodeList (bindNode deps body f) σ ys = some r → CycIn deps σ L →
      CycIn deps r.1 L ∨ HasCirc r.2 := by
  intro ys
  induction ys with
  | nil =>
    intro σ r L h hcyc
    rw [bindNodeList_nil_inv h]
    exact Or.inl hcyc
  | cons y ys ih =>
    intro σ r L h hcyc
    obtain ⟨p, q, hy, hrest, hr1, hr2⟩ := bindNodeList_cons_inv h
    rcases hnode σ y p L hy hcyc with hcyc' | hc
    · rcases ih p.1 q L hrest hcyc' with hcyc'' | hc'
      · rw [hr1]; exact Or.inl hcyc''
      · rw [hr2]; exact Or.inr (hasCirc_append_right hc')
    · rw [hr2]; exact Or.inr (hasCirc_append_left hc)

/-- A call either keeps a fully-unbound cycle alive or emits a circular
reference. -/
theorem bindNode_cyc : ∀ f, CycStmt deps body f := by
  intro f
  induction f with
  | zero => intro σ x r L h; cases h
  | succ g ih =>
    intro σ x r L h hcyc
    rcases bindNode_some_inv deps body h with
      ⟨_, rfl⟩ | ⟨_, _, rfl⟩ | ⟨h1, h2, g', q, hg, hseq, hr1, hr2⟩
    · exact Or.inr ⟨x, by simp⟩
    · exact Or.inl hcyc
    · have hg2 : g = g' := by omega
      subst hg2
      obtain ⟨a, l, hch, hsub⟩ := hcyc
      have hInv1 : ∀ z ∈ [x], setState σ x binding z = binding := by
        intro z hz
        rcases List.mem_cons.mp hz with rfl | hz'
        · simp [setState]
        · cases hz'
      by_cases hx : x ∈ a :: l
      · obtain ⟨l', hch', hsub'⟩ := chain_rotate deps hch hx
        right
        rw [hr2]
        refine hasCirc_append_left ?_
        cases l' with
        | nil =>
          obtain ⟨hx0, hxd⟩ := hch'
          exact (pres_emit deps body g).2 (setState σ x binding) [x] (deps x) q x
            hInv1 (Reaches.base (by simp [setState]) (by simp)) hxd hseq
        | cons s rest =>
          obtain ⟨hx0, hsd, hchain⟩ := hch'
          exact (pres_emit deps body g).2 (setState σ x binding) [x] (deps x) q s
            hInv1 (chain_to_reaches deps hchain) hsd hseq
      · have hch1 := chain_setState deps (x := x) (v := binding) hch hx
        rcases seq_cyc_of deps body g ih (deps x) (setState σ x binding) q L hseq
          ⟨a, l, hch1, hsub⟩ with hcyc2 | hc
        · left
          obtain ⟨a2, l2, hch2, hsub2⟩ := hcyc2
          have hqx : q.1 x = binding :=
            bindNodeList_keep_binding deps body hseq (by simp [setState])
          have hx2 : x ∉ a2 :: l2 := by
            intro hm
            have := chain_states deps hch2 x hm
            rw [hqx] at this
            simp [binding, unbound] at this
          rw [hr1]
          exact ⟨a2, l2, chain_setState deps (v := bound) hch2 hx2, hsub2⟩
        · right
          rw [hr2]
          exact hasCirc_append_left hc

/-- The number of `unbound` nodes among `L`: the recursion measure. -/
def countUnbound (L : List Nat) (σ : BState) : Nat :=
  (L.filter fun z => σ z = unbound).length

theorem countUnbound_mono {σ σ' : BState}
    (h : ∀ z, σ' z = unbound → σ z = unbound) (L : List Nat) :
    countUnbound L σ' ≤ countUnbound L σ := by
  induction L with
  | nil => exact Nat.le_refl _
  | cons z L ih =>
    simp only [countUnbound, List.filter_cons] at *
    by_cases h1 : σ' z = unbound
    · rw [if_pos (by simpa using h1), if_pos (by simpa using h z h1)]
      simpa using Nat.succ_le_succ ih
    · rw [if_neg (by simpa using h1)]
      by_cases h2 : σ z = unbound
      · rw [if_pos (by simpa using h2)]
        simp only [List.length_cons]
        exact Nat.le_trans ih (Nat.le_succ _)
      · rw [if_neg (by simpa using h2)]
        exact ih

theorem countUnbound_dec {σ : BState} {x : Nat} :
    ∀ {L : List Nat}, L.Nodup → x ∈ L → σ x = unbound →
      countUnbound L (setState σ x binding) < countUnbound L σ := by
  intro L
  induction L with
  | nil => intro _ hx; cases hx
  | cons z L ih =>
    intro hnodup hx hσx
    obtain ⟨hz, hnodup'⟩ := List.nodup_cons.mp hnodup
    simp only [countUnbound, List.filter_cons]
    rcases List.mem_cons.mp hx with rfl | hx'
    · have hc1 : ¬(decide (setState σ x binding x = unbound) = true) := by
        simp [setState, binding, unbound]
      have hc2 : decide (σ x = unbound) = true := by simpa using hσx
      rw [if_neg hc1, if_pos hc2]
      have heq : List.filter (fun w => decide (setState σ x binding w = unbound)) L =
          List.filter (fun w => decide (σ w = unbound)) L :=
        List.filter_congr (fun w hw => by
          have hwz : w ≠ x := fun he => hz (he ▸ hw)
          rw [setState_other _ _ _ _ hwz])
      rw [heq, List.length_cons]
      exact Nat.lt_succ_self _
    · have hzx : z ≠ x := fun he => hz (he ▸ hx')
      have hset : setState σ x binding z = σ z := setState_other _ _ _ _ hzx
      have hlt := ih hnodup' hx' hσx
      simp only [countUnbound] at hlt
      rw [hset]
      by_cases h2 : decide (σ z = unbound) = true
      · rw [if_pos h2, if_pos h2, List.length_cons, List.length_cons]
        exact Nat.succ_lt_succ hlt
      · rw [if_neg h2, if_neg h2]
        exact hlt

/-- Statement: enough fuel makes `bindNode` return. -/
def TermNode (f : Nat) : Prop :=
  ∀ (σ : BState) (L : List Nat) (x : Nat),
    L.Nodup → (∀ y ∈ L, ∀ u ∈ deps y, u ∈ L) → (∀ z, σ z ≤ 2) →
    x ∈ L → countUnbound L σ < f →
    ∃ r, bindNode deps body f σ x = some r

/-- Bind-loop transfer of `TermNode`. -/
theorem term_seq_of (f : Nat) (hnode : TermNode deps body f) :
    ∀ (ys : List Nat) (σ : BState) (L : List Nat),
      L.Nodup → (∀ y ∈ L, ∀ u ∈ deps y, u ∈ L) → (∀ z, σ z ≤ 2) →
      (∀ y ∈ ys, y ∈ L) → countUnbound L σ < f →
      ∃ r, bindNodeList (bindNode deps body f) σ ys = some r := by
  intro ys
  induction ys with
  | nil => intro σ L _ _ _ _ _; exact ⟨(σ, []), rfl⟩
  | cons y ys ih =>
    intro σ L hnodup hclosed hwf hys hcount
    obtain ⟨p, hp⟩ := hnode σ L y hnodup hclosed hwf (hys y (List.mem_cons_self _ _)) hcount
    have hwf' : ∀ z, p.1 z ≤ 2 := by
      intro z
      rcases bindNode_strong deps body f σ y p hp z with h' | ⟨_, _, h3⟩
      · rw [h']; exact hwf z
      · rw [h3]; exact Nat.le_refl _
    have hzero : ∀ z, p.1 z = unbound → σ z = unbound := by
      intro z hz
      rcases bindNode_strong deps body f σ y p hp z with h' | ⟨_, _, h3⟩
      · rw [← h']; exact hz
      · rw [h3] at hz; simp [bound, unbound] at hz
    have hcount' : countUnbound L p.1 < f :=
      Nat.lt_of_le_of_lt (countUnbound_mono hzero L) hcount
    obtain ⟨q, hq⟩ := ih p.1 L hnodup hclosed hwf'
      (fun z hz => hys z (List.mem_cons_of_mem _ hz)) hcount'
    refine ⟨(q.1, p.2 ++ q.2), ?_⟩
    obtain ⟨σ1, d1⟩ := p
    obtain ⟨σ2, d2⟩ := q
    simp only [bindNodeList, hp, hq]

/-- With fuel exceeding the number of `unbound` nodes, `bindNode`
returns. -/
theorem term_node : ∀ f, TermNode deps body f := by
  intro f
  induction f with
  | zero => intro σ L x _ _ _ _ hcount; omega
  | succ g ih =>
    intro σ L x hnodup hclosed hwf hx hcount
    by_cases h1 : σ x = binding
    · exact ⟨(σ, [Diag.circularReference x]), by
        rw [bindNode_succ, bindNodeStep, if_pos h1]⟩
    · by_cases h2 : σ x = bound
      · exact ⟨(σ, []), by
          rw [bindNode_succ, bindNodeStep, if_neg h1, if_pos h2]⟩
      · have h0 : σ x = unbound := by
          have := hwf x
          simp only [binding, bound, unbound] at *
          omega
        have hwf1 : ∀ z, setState σ x binding z ≤ 2 := by
          intro z
          by_cases hzx : z = x
          · subst hzx; simp [setState, binding]
          · rw [setState_other _ _ _ _ hzx]; exact hwf z
        have hcount1 : countUnbound L (setState σ x binding) < g := by
          have hdec := countUnbound_dec hnodup hx h0
          omega
        obtain ⟨q, hq⟩ := term_seq_of deps body g ih (deps x)
          (setState σ x binding) L hnodup hclosed hwf1
          (fun u hu => hclosed x hx u hu) hcount1
        refine ⟨(setState q.1 x bound, q.2 ++ body x), ?_⟩
        rw [bindNode_succ, bindNodeStep, if_neg h1, if_neg h2]
        obtain ⟨σ2, ds⟩ := q
        rw [hq]

end BindMachine

/-- C1: for every program whose dependency graph (as extracted by
`getDependencies`, closed over the declared nodes) contains a cycle among
declared nodes, the bind phase of `BindProgram` terminates — fuel one more
than the node count suffices, so the recursion never exceeds the node
count — and the accumulated diagnostics contain at least one
circular-reference diagnostic. -/
theorem bindProgram_cycle_terminates_and_reports
    (deps : Nat → List Nat) (body : Nat → List Diag) (nodes : List Nat)
    (hnodup : nodes.Nodup)
    (hclosed : ∀ y ∈ nodes, ∀ u ∈ deps y, u ∈ nodes)
    (a : Nat) (l : List Nat)
    (hchain : IsUChain deps (fun _ => unbound) (a :: l) a)
    (hsub : ∀ z ∈ a :: l, z ∈ nodes) :
    ∃ r, bindProgramNodes deps body (nodes.length + 1) nodes = some r ∧
      HasCirc r.2 := by
  have hcount : countUnbound nodes (fun _ => unbound) < nodes.length + 1 := by
    have : countUnbound nodes (fun _ => unbound) ≤ nodes.length := by
      simp only [countUnbound]
      exact List.length_filter_le _ nodes
    omega
  obtain ⟨r, hr⟩ := term_seq_of deps body (nodes.length + 1)
    (term_node deps body _) nodes (fun _ => unbound) nodes hnodup hclosed
    (fun _ => by simp [unbound]) (fun y hy => hy) hcount
  refine ⟨r, hr, ?_⟩
  rcases seq_cyc_of deps body (nodes.length + 1)
    (bindNode_cyc deps body _) nodes (fun _ => unbound) r nodes hr
    ⟨a, l, hchain, hsub⟩ with hcyc | hc
  · exfalso
    obtain ⟨a2, l2, hch2, hsub2⟩ := hcyc
    have h0 := chain_states deps hch2 a2 (List.mem_cons_self _ _)
    exact bindNodeList_all_done deps body _ nodes _ r hr a2
      (hsub2 a2 (List.mem_cons_self _ _)) h0
  · exact hc

/-- The dependency function of the two-node cycle `a = b; b = a`. -/
def depsDemo : Nat → List Nat :=
  fun x => if x = 0 then [1] else if x = 1 then [0] else []

/-- The node-kind-specific binder of two local variables:
`bindLocalVariable` returns a not-yet-implemented diagnostic. -/
def bodyDemo : Nat → List Diag :=
  fun x => [Diag.notYetImplemented x]

theorem bindProgram_cycle_terminates_and_reports_witness :
    ∃ r, bindProgramNodes depsDemo bodyDemo ([0, 1].length + 1) [0, 1] = some r ∧
      HasCirc r.2 :=
  bindProgram_cycle_terminates_and_reports depsDemo bodyDemo [0, 1]
    (by decide) (by decide) 0 [1]
    ⟨rfl, by decide, rfl, by decide⟩ (by decide)

/-- C2 counterexample: in the two-node cycle `a = b; b = a`, the circular
reference is detected and reported on node 0 (the accumulated diagnostics
start with `circularReference 0`), yet after `BindProgram`'s loop node 0's
state is `bound`: the in-flight outer `bindNode` frame for node 0 runs its
deferred `node.setState(bound)` when it completes, so the claim that the
node is never subsequently marked `bound` is false. -/
theorem circular_node_ends_bound_cex :
    stateOf (bindProgramNodes depsDemo bodyDemo 3 [0, 1]) 0 = some bound ∧
    diagsOf (bindProgramNodes depsDemo bodyDemo 3 [0, 1]) =
      some [Diag.circularReference 0, Diag.notYetImplemented 1,
        Diag.notYetImplemented 0] := by
  exact ⟨rfl, rfl⟩

/-- C2 (amended): when `bindNode` is re-entered on a node in state
`binding` it reports the circular reference and returns with the state
function unchanged; and states only ever move forward
(`unbound → binding → bound`, numerically monotone) across any completed
call — in particular the detected node is later marked `bound` when its
own in-flight frame completes, rather than staying `binding` forever. -/
theorem bindNode_circular_return_and_forward_only :
    (∀ (deps : Nat → List Nat) (body : Nat → List Diag) (f : Nat)
      (σ : BState) (x : Nat), σ x = binding →
      bindNode deps body (f + 1) σ x = some (σ, [Diag.circularReference x])) ∧
    (∀ (deps : Nat → List Nat) (body : Nat → List Diag) (f : Nat)
      (σ : BState) (x : Nat) (r : BState × List Diag),
      (∀ z, σ z ≤ bound) → bindNode deps body f σ x = some r →
      ∀ z, σ z ≤ r.1 z) := by
  constructor
  · intro deps body f σ x h1
    rw [bindNode_succ, bindNodeStep, if_pos h1]
  · intro deps body f σ x r hwf h z
    rcases bindNode_strong deps body f σ x r h z with h' | ⟨_, _, h3⟩
    · rw [h']
    · rw [h3]
      exact hwf z

theorem bindNode_circular_return_and_forward_only_witness :
    bindNode depsDemo bodyDemo 1 (fun _ => binding) 0 =
      some ((fun _ => binding), [Diag.circularReference 0]) :=
  bindNode_circular_return_and_forward_only.1 depsDemo bodyDemo 0
    (fun _ => binding) 0 rfl

/-! ## The type system

The `Type` interface's variants (the type-system file is referenced by the
binder but is not among the sources).  Modelled from the spec (§3):
primitives Bool/Int/Number/String/Any/Archive/Asset, Array(T), Map(T),
structural Object, Union, the wrappers Optional/Output/Promise, and Token;
`nilT` stands for Go's nil `Type` value, which the binder produces for a
null literal. -/
inductive Ty where
  | bool
  | int
  | number
  | string
  | any
  | archive
  | asset
  | nilT
  | array (elementType : Ty)
  | map (elementType : Ty)
  | object (properties : List (String × Ty))
  | union (elementTypes : List Ty)
  | optional (elementType : Ty)
  | output (elementType : Ty)
  | promise (elementType : Ty)
  | token (name : String)

/-- `resource.PropertyValue` as the binder uses it: null, bool, number,
string, or some other kind.  The numeric payload is opaque to binding
(Go carries a `float64`; no claim depends on its value). -/
inductive PV where
  | nullV
  | boolV (b : Bool)
  | numberV (n : Nat)
  | stringV (s : String)
  | otherV
  deriving DecidableEq, Repr

/-- `PropertyValue.IsString`. -/
def PV.isString : PV → Bool
  | .stringV _ => true
  | _ => false

/-- `PropertyValue.IsNumber`. -/
def PV.isNumber : PV → Bool
  | .numberV _ => true
  | _ => false

/-! ## Traversal type resolution (`bindTraversalType` / `bindIndexType`) -/

/-- `bindIndexType`: resolve one index/attribute step against a receiver
type.  Optional/Output/Promise recurse into the element type and re-wrap;
Map checks for a string key, Array for a number index; Object looks the
literal property name up; Any absorbs; anything else is an unsupported
receiver. -/
def bindIndexType (receiver : Ty) (index : PV) : Ty × List Diag :=
  match receiver with
  | .optional elementType =>
    let p := bindIndexType elementType index
    (.optional p.1, p.2)
  | .output elementType =>
    let p := bindIndexType elementType index
    (.output p.1, p.2)
  | .promise elementType =>
    let p := bindIndexType elementType index
    (.promise p.1, p.2)
  | .map elementType =>
    (elementType, if index.isString then [] else [Diag.unsupportedMapKey])
  | .array elementType =>
    (elementType, if index.isNumber then [] else [Diag.unsupportedArrayIndex])
  | .object properties =>
    match index with
    | .stringV propertyName =>
      match (properties.find? fun e => e.1 = propertyName).map (fun e => e.2) with
      | none => (.any, [Diag.unknownObjectProperty propertyName])
      | some propertyType => (propertyType, [])
    | _ => (.any, [Diag.unsupportedObjectProperty])
  | .any => (.any, [])
  | _ => (.any, [Diag.unsupportedReceiverType])

/-- One step of an `hcl.Traversal`: an attribute name or an index key. -/
inductive TravPart where
  | attr (name : String)
  | index (key : PV)
  deriving DecidableEq, Repr

/-- The key value of a traversal part (`TraverseAttr` carries its name as
a string value). -/
def travKey : TravPart → PV
  | .attr name => .stringV name
  | .index k => k

/-- The key-kind switch of `bindTraversalType`: number and string keys
convert to property values, any other kind is rejected. -/
def keyToProperty : PV → Option PV
  | .numberV n => some (.numberV n)
  | .stringV s => some (.stringV s)
  | _ => none

/-- The loop of `bindTraversalType` with its accumulated diagnostics; an
unsupported key kind returns `Any` with only that diagnostic (the source
returns a fresh diagnostics slice there). -/
def bindTraversalTypeAux : Ty → List TravPart → List Diag → Ty × List Diag
  | receiver, [], diagnostics => (receiver, diagnostics)
  | receiver, part :: rest, diagnostics =>
    match keyToProperty (travKey part) with
    | none => (.any, [Diag.unsupportedIndexKey])
    | some index =>
      let p := bindIndexType receiver index
      bindTraversalTypeAux p.1 rest (diagnostics ++ p.2)

/-- `bindTraversalType`: walk an index/attribute chain from a receiver
type. -/
def bindTraversalType (receiver : Ty) (traversal : List TravPart) :
    Ty × List Diag :=
  bindTraversalTypeAux receiver traversal []

/-! ## Assignability (`Type.AssignableFrom`, `IsOptionalType`)

The type-system methods are referenced by the binder but their file is not
among the sources; they are modelled from the spec (§4.1).  The recursion
mixes destination- and source-side descent, so it is bounded by fuel; the
wrapper supplies fuel `sizeOf dst + sizeOf src`, which every rule strictly
decreases. -/

/-- `IsOptionalType`.  Modelled from the spec: recognizes the `Optional`
wrapper. -/
def IsOptionalType : Ty → Bool
  | .optional _ => true
  | _ => false

/-- `AssignableFrom` with explicit fuel.  Modelled from the spec (§4.1):
`Any` absorbs in both directions; a `Union`/`Optional` source needs every
alternative assignable; a `Union` destination needs some alternative to
accept the source; `Array`/`Map`/`Output`/`Promise` are covariant;
`Object` uses structural width subtyping (a property of the destination
absent from the source is tolerated only when `Optional`); primitives and
tokens match exactly. -/
def assignFuel : Nat → Ty → Ty → Bool
  | 0, _, _ => false
  | fuel + 1, dst, src =>
    match dst, src with
    | .any, _ => true
    | _, .any => true
    | dst, .union elementTypes => elementTypes.all fun s => assignFuel fuel dst s
    | .optional d, .optional s => assignFuel fuel (.optional d) s
    | .optional d, src => assignFuel fuel d src
    | .union elementTypes, src => elementTypes.any fun d => assignFuel fuel d src
    | .array d, .array s => assignFuel fuel d s
    | .map d, .map s => assignFuel fuel d s
    | .output d, .output s => assignFuel fuel d s
    | .promise d, .promise s => assignFuel fuel d s
    | .object dstProps, .object srcProps =>
      dstProps.all fun e =>
        match (srcProps.find? fun e' => e'.1 = e.1).map (fun e' => e'.2) with
        | some srcType => assignFuel fuel e.2 srcType
        | none => IsOptionalType e.2
    | .token n1, .token n2 => n1 = n2
    | .bool, .bool => true
    | .int, .int => true
    | .number, .number => true
    | .string, .string => true
    | .archive, .archive => true
    | .asset, .asset => true
    | _, _ => false

mutual
/-- Structural size of a type, bounding the recursion depth of
assignability. -/
def tySize : Ty → Nat
  | .array e => 1 + tySize e
  | .map e => 1 + tySize e
  | .optional e => 1 + tySize e
  | .output e => 1 + tySize e
  | .promise e => 1 + tySize e
  | .object props => 1 + tyPropsSize props
  | .union es => 1 + tyListSize es
  | _ => 1

/-- Size of an object's property list. -/
def tyPropsSize : List (String × Ty) → Nat
  | [] => 0
  | (_, t) :: rest => 1 + tySize t + tyPropsSize rest

/-- Size of a union's alternative list. -/
def tyListSize : List Ty → Nat
  | [] => 0
  | t :: rest => 1 + tySize t + tyListSize rest
end

/-- `AssignableFrom`.  Modelled from the spec (§4.1). -/
def assignableFrom (dst src : Ty) : Bool :=
  assignFuel (tySize dst + tySize src) dst src

/-! ## Expression model and binder (`bindExpression`)

The syntax forms the settled claims touch, as a mutual family so the
binder is structurally recursive: literal values, object constructors and
their key expressions, function calls, scope traversals, and one stand-in
for every not-yet-implemented form (binary op, conditional, for, index,
splat, unary op, anonymous symbol), each of which binds to an `Error`
expression typed `Any` plus a diagnostic.  `hcl.ExprAsKeyword` (an
external library helper) is modelled by the `keyword` field of the key
expression. -/
mutual
inductive SynExpr where
  | literal (value : PV)
  | objectCons (items : SynItems)
  | objectConsKey (wrapped : SynExpr) (keyword : Option String)
      (forceNonLiteral : Bool)
  | functionCall (name : String) (args : SynList)
  | scopeTraversal (rootName : String) (rel : List TravPart)
  | notImplementedForm

inductive SynList where
  | nil
  | cons (head : SynExpr) (tail : SynList)

inductive SynItems where
  | nil
  | cons (key value : SynExpr) (tail : SynItems)
end

/-- Bound expressions (the `Expression` implementations the settled claims
touch), each carrying its resolved type. -/
inductive BExpr where
  | literalValue (value : PV) (exprType : Ty)
  | objectConsE (items : List (BExpr × BExpr)) (exprType : Ty)
  | functionCallE (args : List BExpr) (exprType : Ty)
  | scopeTraversalE (exprType : Ty)
  | errorE (exprType : Ty)

/-- `Expression.Type()`. -/
def BExpr.typ : BExpr → Ty
  | .literalValue _ t => t
  | .objectConsE _ t => t
  | .functionCallE _ t => t
  | .scopeTraversalE t => t
  | .errorE t => t

/-- Go map assignment `properties[name] = t` on an association list:
replace the existing entry or append. -/
def insertProp : List (String × Ty) → String → Ty → List (String × Ty)
  | [], name, t => [(name, t)]
  | (n, t0) :: rest, name, t =>
    if n = name then (n, t) :: rest else (n, t0) :: insertProp rest name t

/-- The typing loop of `bindObjectConsExpression`: build an object type
from literal-string keys, or type the whole constructor `Any` at the
first non-literal (computed) key. -/
def objectConsTypeAux : List (BExpr × BExpr) → List (String × Ty) → Ty
  | [], properties => .object properties
  | (key, value) :: rest, properties =>
    match key with
    | .literalValue (.stringV s) _ =>
      objectConsTypeAux rest (insertProp properties s value.typ)
    | _ => .any

/-- The object-constructor result type. -/
def objectConsType (items : List (BExpr × BExpr)) : Ty :=
  objectConsTypeAux items []

/-- `bindLiteralValueExpression`: null/bool/number/string map to their
types (null to Go's nil type); any other literal kind is unsupported. -/
def bindLiteralValueExpression (value : PV) : BExpr × List Diag :=
  match value with
  | .nullV => (.literalValue .nullV .nilT, [])
  | .boolV b => (.literalValue (.boolV b) .bool, [])
  | .numberV n => (.literalValue (.numberV n) .number, [])
  | .stringV s => (.literalValue (.stringV s) .string, [])
  | .otherV => (.literalValue .nullV .any, [Diag.unsupportedLiteralValue])

/-- `parameter` of the builtin signatures. -/
structure FuncParameter where
  name : String
  typ : Ty

/-- `functionSignature`. -/
structure FuncSignature where
  parameters : List FuncParameter
  varargsParameter : Option FuncParameter
  returnType : Ty

/-- `getFunctionDefinition`: the closed builtin set `fileAsset`,
`mimeType`, `toJSON`; an unknown name is a diagnostic. -/
def getFunctionDefinition (name : String) :
    Option (List BExpr → FuncSignature × List Diag) × List Diag :=
  match name with
  | "fileAsset" =>
    (some fun _ => (⟨[⟨"path", .string⟩], none, .asset⟩, []), [])
  | "mimeType" =>
    (some fun _ => (⟨[⟨"path", .string⟩], none, .string⟩, []), [])
  | "toJSON" =>
    (some fun _ => (⟨[⟨"value", .any⟩], none, .string⟩, []), [])
  | _ => (none, [Diag.unknownFunction name])

/-- The parameter loop of `bindFunctionCallExpression`: positionally match
arguments against parameters, reporting a missing required parameter or an
unassignable argument; return the leftover arguments. -/
def checkParameters : List FuncParameter → List BExpr → List Diag × List BExpr
  | [], remainingArgs => ([], remainingArgs)
  | param :: rest, [] =>
    let d : List Diag :=
      if IsOptionalType param.typ then []
      else [Diag.missingRequiredArgument param.name]
    let p := checkParameters rest []
    (d ++ p.1, p.2)
  | param :: rest, arg :: remaining =>
    let d : List Diag :=
      if assignableFrom param.typ arg.typ then [] else [Diag.exprNotAssignable]
    let p := checkParameters rest remaining
    (d ++ p.1, p.2)

/-- The leftover-argument check of `bindFunctionCallExpression`: extra
arguments are an error unless a varargs parameter accepts them. -/
def checkExtraArgs (signature : FuncSignature) (args remaining : List BExpr) :
    List Diag :=
  if remaining.isEmpty then []
  else
    match signature.varargsParameter with
    | none => [Diag.extraArguments signature.parameters.length args.length]
    | some varargs =>
      remaining.foldl
        (fun acc arg =>
          acc ++ (if assignableFrom varargs.typ arg.typ then []
            else [Diag.exprNotAssignable])) []

/-- `bindScopeTraversalExpression`: resolve the root name in the node
table (`b.nodes`), else an undefined-variable diagnostic; then walk the
relative traversal from the node's type. -/
def bindScopeTraversalExpression (nodes : List (String × Ty))
    (rootName : String) (rel : List TravPart) : BExpr × List Diag :=
  match (nodes.find? fun e => e.1 = rootName).map (fun e => e.2) with
  | none => (.scopeTraversalE .any, [Diag.undefinedVariable])
  | some nodeType =>
    let p := bindTraversalType nodeType rel
    (.scopeTraversalE p.1, p.2)

mutual
/-- `bindExpression`: recursive dispatch on the syntax kind.  The
object-constructor key case inlines the re-binding of an implicit keyword
as a string literal (the source calls `bindExpression` on a fresh
`LiteralValueExpr`, which is `bindLiteralValueExpression`). -/
def bindExpression (nodes : List (String × Ty)) : SynExpr → BExpr × List Diag
  | .literal value => bindLiteralValueExpression value
  | .objectCons items =>
    let p := bindObjectItems nodes items
    (.objectConsE p.1 (objectConsType p.1), p.2)
  | .objectConsKey wrapped keyword forceNonLiteral =>
    if forceNonLiteral then bindExpression nodes wrapped
    else
      match keyword with
      | some name => bindLiteralValueExpression (.stringV name)
      | none => bindExpression nodes wrapped
  | .functionCall name args =>
    let defn := getFunctionDefinition name
    let bound := bindExpressionList nodes args
    let diagnostics := defn.2 ++ bound.2
    match defn.1 with
    | none => (.functionCallE bound.1 .any, diagnostics)
    | some definition =>
      let sig := definition bound.1
      let checked := checkParameters sig.1.parameters bound.1
      (.functionCallE bound.1 sig.1.returnType,
        diagnostics ++ sig.2 ++ checked.1 ++ checkExtraArgs sig.1 bound.1 checked.2)
  | .scopeTraversal rootName rel =>
    bindScopeTraversalExpression nodes rootName rel
  | .notImplementedForm => (.errorE .any, [Diag.notYetImplementedExpr])

/-- Argument binding of `bindFunctionCallExpression`, in order. -/
def bindExpressionList (nodes : List (String × Ty)) :
    SynList → List BExpr × List Diag
  | .nil => ([], [])
  | .cons head tail =>
    let p := bindExpression nodes head
    let q := bindExpressionList nodes tail
    (p.1 :: q.1, p.2 ++ q.2)

/-- The item loop of `bindObjectConsExpression`: bind the key, check it
is string-assignable, bind the value. -/
def bindObjectItems (nodes : List (String × Ty)) :
    SynItems → List (BExpr × BExpr) × List Diag
  | .nil => ([], [])
  | .cons key value tail =>
    let kp := bindExpression nodes key
    let keyDiags : List Diag :=
      if assignableFrom .string kp.1.typ then []
      else [Diag.objectKeysMustBeStrings]
    let vp := bindExpression nodes value
    let rest := bindObjectItems nodes tail
    ((kp.1, vp.1) :: rest.1, kp.2 ++ keyDiags ++ vp.2 ++ rest.2)
end

/-- `bindObjectConsExpression`, by its source name. -/
def bindObjectConsExpression (nodes : List (String × Ty)) (items : SynItems) :
    BExpr × List Diag :=
  bindExpression nodes (.objectCons items)

/-- `bindFunctionCallExpression`, by its source name. -/
def bindFunctionCallExpression (nodes : List (String × Ty)) (name : String)
    (args : SynList) : BExpr × List Diag :=
  bindExpression nodes (.functionCall name args)

/-! ## Resource type binding (`bindResourceTypes`) -/

/-- A resource entry of a loaded package schema.  The property lists carry
already-converted types; the schema-bridge conversion itself
(`schemaTypeToType`) is outside the settled claims and is abstracted by
the `bindRest` parameter of `bindResourceTypes`. -/
structure SchemaResource where
  resToken : String
  inputProperties : List (String × Ty)
  outputProperties : List (String × Ty)

/-- A `packageSchema` cache entry: resources by canonical token. -/
structure PkgSchema where
  resources : List (String × SchemaResource)

/-- `bindResourceTypes` up to the schema lookups: input and output types
default to `Any`; a malformed token, an unloaded package, or an unknown
resource type each return early with one diagnostic and the `Any`
defaults.  The remainder of the function (building the input/output object
types from the schema and binding the resource body), reached only when
the token resolves, is the parameter `bindRest`. -/
def bindResourceTypes (packageSchemas : List (String × PkgSchema))
    (bindRest : SchemaResource → (Ty × Ty) × List Diag)
    (token : String) : (Ty × Ty) × List Diag :=
  let defaults := (Ty.any, Ty.any)
  let d := decomposeToken token
  let pkg := d.1.1
  if hasErrors d.2 then (defaults, d.2)
  else
    match (packageSchemas.find? fun e => e.1 = pkg).map (fun e => e.2) with
    | none => (defaults, [Diag.unknownPackage pkg])
    | some pkgSchema =>
      match (pkgSchema.resources.find? fun e => e.1 = token).map (fun e => e.2) with
      | none => (defaults, [Diag.unknownResourceType token])
      | some res => bindRest res

/-! ## Claim theorems (traversal, functions, tokens, labels, ordering,
scopes) -/

/-- C5: traversal type resolution is transparent to the wrapper types —
for every receiver `Optional(E)`, `Output(E)` or `Promise(E)` and every
index/attribute step, `bindIndexType` resolves the step against `E` and
re-wraps the result in the same wrapper — and binding the scope traversal
`myresource.bucket` against a resource node whose output type carries the
property `bucket: Output<String>` yields an expression typed
`Output<String>` with no diagnostics. -/
theorem bindIndexType_wrapper_transparent :
    (∀ (elementType : Ty) (index : PV),
      bindIndexType (.optional elementType) index =
        (.optional (bindIndexType elementType index).1,
          (bindIndexType elementType index).2) ∧
      bindIndexType (.output elementType) index =
        (.output (bindIndexType elementType index).1,
          (bindIndexType elementType index).2) ∧
      bindIndexType (.promise elementType) index =
        (.promise (bindIndexType elementType index).1,
          (bindIndexType elementType index).2)) ∧
    bindExpression
        [("myresource", Ty.object [("bucket", .output .string),
          ("id", .output .string), ("urn", .output .string)])]
        (.scopeTraversal "myresource" [.attr "bucket"]) =
      (.scopeTraversalE (.output .string), []) :=
  ⟨fun _ _ => ⟨rfl, rfl, rfl⟩, rfl⟩

/-- C8: binding `fileAsset()` with zero arguments yields exactly one
missing-required-parameter diagnostic and a function-call expression typed
`Asset`; binding `fileAsset("a", "b")` yields exactly one too-many-arguments
diagnostic and still a function-call expression — neither call fails the
bind. -/
theorem fileAsset_arity_diagnostics :
    (∀ nodes, bindFunctionCallExpression nodes "fileAsset" .nil =
      (.functionCallE [] .asset, [Diag.missingRequiredArgument "path"])) ∧
    (∀ nodes, bindFunctionCallExpression nodes "fileAsset"
        (.cons (.literal (.stringV "a")) (.cons (.literal (.stringV "b")) .nil)) =
      (.functionCallE [.literalValue (.stringV "a") .string,
        .literalValue (.stringV "b") .string] .asset,
       [Diag.extraArguments 1 2])) :=
  ⟨fun _ => rfl, fun _ => rfl⟩

/-- C9: a resource whose token label does not split into exactly three
colon-delimited components binds with one malformed-token diagnostic,
leaves the input and output types at their `Any` defaults, and returns
normally (no abort) — independent of the loaded schemas and of the rest of
the resource binder. -/
theorem bindResourceTypes_malformed_token
    (packageSchemas : List (String × PkgSchema))
    (bindRest : SchemaResource → (Ty × Ty) × List Diag) (token : String)
    (h : (splitOnColon token).length ≠ 3) :
    bindResourceTypes packageSchemas bindRest token =
      ((Ty.any, Ty.any), [Diag.malformedToken token]) := by
  have hd : decomposeToken token = (("", "", ""), [Diag.malformedToken token]) := by
    unfold decomposeToken
    cases hl : splitOnColon token with
    | nil => rfl
    | cons a t1 =>
      cases t1 with
      | nil => rfl
      | cons b t2 =>
        cases t2 with
        | nil => rfl
        | cons c t3 =>
          cases t3 with
          | nil => exact absurd (by rw [hl]; rfl) h
          | cons d t4 => rfl
  simp [bindResourceTypes, hd, hasErrors]

theorem bindResourceTypes_malformed_token_witness :
    bindResourceTypes [] (fun _ => ((Ty.any, Ty.any), [])) "not-a-token" =
      ((Ty.any, Ty.any), [Diag.malformedToken "not-a-token"]) :=
  bindResourceTypes_malformed_token [] (fun _ => ((Ty.any, Ty.any), []))
    "not-a-token" (by decide)

/-- C10: the declare-phase label read (`block.Labels[0]`) and the bind-phase
token read (`getResourceToken`'s `Labels[1]`) are both in bounds exactly
when the resource block carries at least two labels; with one label the
wrong-label-count diagnostic is emitted yet declaration still proceeds on
`Labels[0]` while the bind-phase read is out of bounds, and with no labels
the declare-phase read itself is out of bounds — the diagnostic never
guards the accesses. -/
theorem resource_label_access_requires_two_labels :
    (∀ labels : List String,
      ((declareResourceLabels labels).isSome ∧
        (getResourceTokenLabel labels).isSome) ↔ 2 ≤ labels.length) ∧
    declareResourceLabels ["x"] =
      some ([Diag.labelsError "resource variables must have exactly two labels"],
        "x") ∧
    getResourceTokenLabel ["x"] = none ∧
    declareResourceLabels [] = none := by
  refine ⟨?_, by decide, by decide, by decide⟩
  intro labels
  cases labels with
  | nil => simp [declareResourceLabels, getResourceTokenLabel]
  | cons a t =>
    cases t with
    | nil => simp [declareResourceLabels, getResourceTokenLabel]
    | cons b t' => simp [declareResourceLabels, getResourceTokenLabel]

/-- C3 (code bug): the comparator `sort.Slice` receives from
`sourceOrderNodes` — `ir.Filename < jr.Filename || ir.Start.Byte <
jr.Start.Byte` — is not asymmetric: for a node of file `"b.pp"` at byte 0
and a node of file `"a.pp"` at byte 5 it answers `true` in both
directions, so on a two-element slice Go's insertion sort swaps whichever
permutation it is handed and the two map-iteration orders of the root
scope produce two different "sorted" node orders. -/
theorem sourceOrderNodesLess_not_asymmetric :
    sourceOrderNodesLess ⟨"b.pp", 0⟩ ⟨"a.pp", 5⟩ = true ∧
    sourceOrderNodesLess ⟨"a.pp", 5⟩ ⟨"b.pp", 0⟩ = true ∧
    sortPair sourceOrderNodesLess [⟨"b.pp", 0⟩, ⟨"a.pp", 5⟩] =
      [⟨"a.pp", 5⟩, ⟨"b.pp", 0⟩] ∧
    sortPair sourceOrderNodesLess [⟨"a.pp", 5⟩, ⟨"b.pp", 0⟩] =
      [⟨"b.pp", 0⟩, ⟨"a.pp", 5⟩] := by
  refine ⟨?_, ?_, ?_, ?_⟩ <;> decide

/-- C7 counterexample: `scopes.push` appends, so in the stack
`[[("a", 1)], [("a", 2)]]` the table holding node 2 is the innermost
(most recently pushed) one; yet `scopes.bindReference` iterates from index
0 and resolves `"a"` to node 1, the definition in the first-pushed
(outermost) table — not the innermost as the claim states. -/
theorem scopesBindReference_innermost_cex :
    scopesPush [[("a", 1)]] = [[("a", 1)], []] ∧
    scopesBindReference [[("a", 1)], [("a", 2)]] "a" = some 1 ∧
    (1 : Nat) ≠ 2 := by
  refine ⟨rfl, rfl, by decide⟩

/-- C7 (amended): name resolution consults the first-pushed (outermost)
table first — a reference resolves to the definition in the outermost
table containing the name, so an inner definition never shadows an outer
one — while within a single table a name is defined at most once
(`define` refuses a redefinition and leaves the table unchanged). -/
theorem scopesBindReference_first_pushed_wins :
    (∀ (pre : List Scope) (s : Scope) (post : List Scope) (name : String)
      (v : Nat),
      (∀ t ∈ pre, scopeBindReference t name = none) →
      scopeBindReference s name = some v →
      scopesBindReference (pre ++ s :: post) name = some v) ∧
    (∀ (s : Scope) (name : String) (n : Nat),
      (scopeBindReference s name).isSome → scopeDefine s name n = (s, false)) := by
  constructor
  · intro pre
    induction pre with
    | nil =>
      intro s post name v _ hs
      simp [scopesBindReference, hs]
    | cons t pre ih =>
      intro s post name v hpre hs
      have ht := hpre t (List.mem_cons_self _ _)
      simp only [List.cons_append, scopesBindReference, ht]
      exact ih s post name v (fun t' ht' => hpre t' (List.mem_cons_of_mem _ ht')) hs
  · intro s name n h
    simp [scopeDefine, h]

theorem scopesBindReference_first_pushed_wins_witness :
    scopesBindReference [[("b", 9)], [("a", 1)], [("a", 2)]] "a" = some 1 ∧
    scopeDefine [("a", 1)] "a" 7 = ([("a", 1)], false) :=
  ⟨scopesBindReference_first_pushed_wins.1 [[("b", 9)]] [("a", 1)] [[("a", 2)]]
      "a" 1 (by decide) (by decide),
    scopesBindReference_first_pushed_wins.2 [("a", 1)] "a" 7 (by decide)⟩

/-! ## The declare phase: duplicate declarations (C4) -/

theorem scopeBindReference_nil (m : String) :
    scopeBindReference [] m = none := rfl

theorem scopeBindReference_cons (e : String × Nat) (s : Scope) (m : String) :
    scopeBindReference (e :: s) m =
      if e.1 = m then some e.2 else scopeBindReference s m := by
  by_cases he : e.1 = m <;> simp [scopeBindReference, List.find?_cons, he]

theorem scopeBindReference_append (s1 s2 : Scope) (m : String) :
    scopeBindReference (s1 ++ s2) m =
      match scopeBindReference s1 m with
      | some v => some v
      | none => scopeBindReference s2 m := by
  induction s1 with
  | nil => simp [scopeBindReference_nil]
  | cons e s1 ih =>
    rw [List.cons_append, scopeBindReference_cons, scopeBindReference_cons]
    by_cases he : e.1 = m
    · rw [if_pos he, if_pos he]
    · rw [if_neg he, if_neg he, ih]

theorem declareNode_of_dup {root : Scope} {name : String} (node : Nat)
    (h : (scopeBindReference root name).isSome = true) :
    declareNode root name node = (root, [Diag.alreadyDeclared name]) := by
  simp [declareNode, scopeDefine, h]

theorem declareNode_of_new {root : Scope} {name : String} (node : Nat)
    (h : (scopeBindReference root name).isSome = false) :
    declareNode root name node = (root ++ [(name, node)], []) := by
  simp [declareNode, scopeDefine, h]

theorem declareAll_cons (root : Scope) (name : String) (node : Nat)
    (rest : List (String × Nat)) :
    declareAll root ((name, node) :: rest) =
      ((declareAll (declareNode root name node).1 rest).1,
       (declareNode root name node).2 ++
         (declareAll (declareNode root name node).1 rest).2) := rfl

/-- Name lookup after the declaration loop: a name already in the root
resolves unchanged, otherwise the first declaration carrying it wins. -/
theorem declareAll_lookup :
    ∀ (l : List (String × Nat)) (root : Scope) (m : String),
      scopeBindReference (declareAll root l).1 m =
        match scopeBindReference root m with
        | some v => some v
        | none => (l.find? fun e => e.1 = m).map fun e => e.2 := by
  intro l
  induction l with
  | nil =>
    intro root m
    cases h : scopeBindReference root m <;> simp [declareAll, h]
  | cons e rest ih =>
    intro root m
    obtain ⟨name, node⟩ := e
    rw [declareAll_cons]
    by_cases hdup : (scopeBindReference root name).isSome
    · rw [declareNode_of_dup node hdup]
      rw [ih root m]
      cases hm : scopeBindReference root m with
      | some v => rfl
      | none =>
        have hnm : ¬(name = m) := fun he => by
          rw [he, hm] at hdup; simp at hdup
        simp [List.find?_cons, hnm]
    · rw [declareNode_of_new node (by simpa using hdup)]
      rw [ih (root ++ [(name, node)]) m]
      have happ := scopeBindReference_append root [(name, node)] m
      by_cases hnm : name = m
      · subst hnm
        have hroot : scopeBindReference root name = none := by
          cases h : scopeBindReference root name with
          | none => rfl
          | some v => rw [h] at hdup; simp at hdup
        rw [happ, hroot]
        simp [scopeBindReference_cons, List.find?_cons]
      · have hsingle : scopeBindReference [(name, node)] m = none := by
          simp [scopeBindReference_cons, scopeBindReference_nil, hnm]
        rw [happ, hsingle]
        cases hm : scopeBindReference root m with
        | some v => rfl
        | none => simp [List.find?_cons, hnm]

/-- The number of already-declared diagnostics for a name produced by the
declaration loop: one per declaration of the name beyond the first (or per
declaration, when the root already holds the name). -/
theorem declareAll_count :
    ∀ (l : List (String × Nat)) (root : Scope) (n : String),
      ((declareAll root l).2.count (Diag.alreadyDeclared n)) =
        (if (scopeBindReference root n).isSome
         then l.countP (fun e => e.1 = n)
         else l.countP (fun e => e.1 = n) - 1) := by
  intro l
  induction l with
  | nil =>
    intro root n
    by_cases h : (scopeBindReference root n).isSome <;> simp [declareAll, h]
  | cons e rest ih =>
    intro root n
    obtain ⟨name, node⟩ := e
    rw [declareAll_cons]
    by_cases hdup : (scopeBindReference root name).isSome
    · rw [declareNode_of_dup node hdup]
      rw [List.count_append, List.count_cons, List.count_nil, ih root n]
      by_cases hnm : name = n
      · subst hnm
        simp [hdup, List.countP_cons]
        omega
      · have hne : ¬(Diag.alreadyDeclared name == Diag.alreadyDeclared n) = true := by
          simp [hnm]
        rw [List.countP_cons]
        simp only [hne, if_false, hnm]
        by_cases hn : (scopeBindReference root n).isSome <;> simp [hn, hnm]
    · rw [declareNode_of_new node (by simpa using hdup)]
      rw [List.nil_append, ih (root ++ [(name, node)]) n]
      have happ := scopeBindReference_append root [(name, node)] n
      by_cases hnm : name = n
      · subst hnm
        have hroot : scopeBindReference root name = none := by
          cases h : scopeBindReference root name with
          | none => rfl
          | some v => rw [h] at hdup; simp at hdup
        have h1 : scopeBindReference (root ++ [(name, node)]) name = some node := by
          rw [happ, hroot]; simp [scopeBindReference_cons]
        rw [h1]
        simp only [Option.isSome_some, if_true, hroot, Option.isSome_none,
          Bool.false_eq_true, if_false, List.countP_cons]
        simp
      · have hsingle : scopeBindReference [(name, node)] n = none := by
          simp [scopeBindReference_cons, scopeBindReference_nil, hnm]
        have h1 : scopeBindReference (root ++ [(name, node)]) n =
            scopeBindReference root n := by
          rw [happ, hsingle]
          cases hm : scopeBindReference root n <;> rfl
        rw [h1, List.countP_cons]
        simp [hnm]

/-- The declared ids are drawn, in order, from the initial scope and the
declaration list. -/
theorem declareAll_ids_sublist :
    ∀ (l : List (String × Nat)) (root : Scope),
      (programNodeIds (declareAll root l).1).Sublist
        (programNodeIds root ++ l.map fun e => e.2) := by
  intro l
  induction l with
  | nil => intro root; simp [declareAll]
  | cons e rest ih =>
    intro root
    obtain ⟨name, node⟩ := e
    rw [declareAll_cons]
    by_cases hdup : (scopeBindReference root name).isSome
    · rw [declareNode_of_dup node hdup]
      refine (ih root).trans ?_
      simp only [List.map_cons]
      exact (List.sublist_cons_self node (rest.map fun e => e.2)).append_left _
    · rw [declareNode_of_new node (by simpa using hdup)]
      refine (ih (root ++ [(name, node)])).trans ?_
      simp [programNodeIds, List.append_assoc]

theorem declareAll_append :
    ∀ (l1 l2 : List (String × Nat)) (root : Scope),
      declareAll root (l1 ++ l2) =
        ((declareAll (declareAll root l1).1 l2).1,
         (declareAll root l1).2 ++ (declareAll (declareAll root l1).1 l2).2) := by
  intro l1
  induction l1 with
  | nil => intro l2 root; simp [declareAll]
  | cons e rest ih =>
    intro l2 root
    obtain ⟨name, node⟩ := e
    rw [List.cons_append, declareAll_cons, declareAll_cons, ih l2]
    simp [List.append_assoc]

/-- The bind loop over any duplicate-free, dependency-closed node list
returns (fuel one more than the node count suffices). -/
theorem bindProgram_terminates (deps : Nat → List Nat) (body : Nat → List Diag)
    (nodes : List Nat) (hnodup : nodes.Nodup)
    (hclosed : ∀ y ∈ nodes, ∀ u ∈ deps y, u ∈ nodes) :
    ∃ r, bindProgramNodes deps body (nodes.length + 1) nodes = some r := by
  have hcount : countUnbound nodes (fun _ => unbound) < nodes.length + 1 := by
    have h1 : countUnbound nodes (fun _ => unbound) ≤ nodes.length := by
      simp only [countUnbound]
      exact List.length_filter_le _ nodes
    omega
  exact term_seq_of deps body (nodes.length + 1) (term_node deps body _) nodes
    (fun _ => unbound) nodes hnodup hclosed (fun _ => by simp [unbound])
    (fun y hy => hy) hcount

/-- C4: when exactly two top-level declarations carry the same name, the
declare phase produces exactly one already-declared diagnostic for that
name; the first-declared node stays resolvable by the name in the root
scope; the duplicate never enters the scope's node list; and the bind
phase over the declared nodes still returns (no fatal error). -/
theorem duplicate_declaration_one_diagnostic_first_wins
    (pre mid post : List (String × Nat)) (n : String) (i1 i2 : Nat)
    (hids : ((pre ++ (n, i1) :: mid ++ (n, i2) :: post).map fun e => e.2).Nodup)
    (hpre : ∀ e ∈ pre, e.1 ≠ n) (hmid : ∀ e ∈ mid, e.1 ≠ n)
    (hpost : ∀ e ∈ post, e.1 ≠ n) :
    ((declareAll [] (pre ++ (n, i1) :: mid ++ (n, i2) :: post)).2.count
        (Diag.alreadyDeclared n) = 1) ∧
    scopeBindReference
        (declareAll [] (pre ++ (n, i1) :: mid ++ (n, i2) :: post)).1 n =
      some i1 ∧
    i2 ∉ programNodeIds
        (declareAll [] (pre ++ (n, i1) :: mid ++ (n, i2) :: post)).1 ∧
    (∀ (deps : Nat → List Nat) (body : Nat → List Diag),
      (∀ y ∈ programNodeIds
          (declareAll [] (pre ++ (n, i1) :: mid ++ (n, i2) :: post)).1,
        ∀ u ∈ deps y, u ∈ programNodeIds
          (declareAll [] (pre ++ (n, i1) :: mid ++ (n, i2) :: post)).1) →
      ∃ r, bindProgramNodes deps body
        ((programNodeIds
          (declareAll [] (pre ++ (n, i1) :: mid ++ (n, i2) :: post)).1).length + 1)
        (programNodeIds
          (declareAll [] (pre ++ (n, i1) :: mid ++ (n, i2) :: post)).1) =
        some r) := by
  have hsplit : pre ++ (n, i1) :: mid ++ (n, i2) :: post =
      (pre ++ (n, i1) :: mid) ++ (n, i2) :: post := by
    simp [List.append_assoc]
  rw [hsplit]
  rw [declareAll_append (pre ++ (n, i1) :: mid) ((n, i2) :: post) []]
  have hprelook : scopeBindReference pre n = none := by
    have hfind : pre.find? (fun e => e.1 = n) = none :=
      List.find?_eq_none.mpr (fun e he => by simp [hpre e he])
    simp [scopeBindReference, hfind]
  have hl1find : scopeBindReference (pre ++ (n, i1) :: mid) n = some i1 := by
    rw [scopeBindReference_append, hprelook, scopeBindReference_cons]
    simp
  have hroot1 : scopeBindReference (declareAll [] (pre ++ (n, i1) :: mid)).1 n =
      some i1 := by
    rw [declareAll_lookup, scopeBindReference_nil]
    exact hl1find
  have hroot1some : (scopeBindReference
      (declareAll [] (pre ++ (n, i1) :: mid)).1 n).isSome = true := by
    rw [hroot1]; rfl
  rw [declareAll_cons, declareNode_of_dup i2 hroot1some]
  have hcountl1 : ((declareAll [] (pre ++ (n, i1) :: mid)).2.count
      (Diag.alreadyDeclared n)) = 0 := by
    rw [declareAll_count, scopeBindReference_nil]
    have hcp : (pre ++ (n, i1) :: mid).countP (fun e => e.1 = n) = 1 := by
      rw [List.countP_append, List.countP_cons]
      have h1 : pre.countP (fun e => decide (e.1 = n)) = 0 :=
        List.countP_eq_zero.mpr (fun e he => by simp [hpre e he])
      have h2 : mid.countP (fun e => decide (e.1 = n)) = 0 :=
        List.countP_eq_zero.mpr (fun e he => by simp [hmid e he])
      simp [h1, h2]
    simp [hcp]
  have hcountpost : ((declareAll (declareAll [] (pre ++ (n, i1) :: mid)).1
      post).2.count (Diag.alreadyDeclared n)) = 0 := by
    rw [declareAll_count, hroot1]
    have hcp : post.countP (fun e => e.1 = n) = 0 :=
      List.countP_eq_zero.mpr (fun e he => by simp [hpost e he])
    simp [hcp]
  have hidsplit : ((pre ++ (n, i1) :: mid) ++ (n, i2) :: post).map
      (fun e => e.2) =
      ((pre ++ (n, i1) :: mid).map fun e => e.2) ++ i2 ::
        (post.map fun e => e.2) := by
    simp
  rw [hsplit] at hids
  rw [hidsplit] at hids
  have hdisj := (List.nodup_append.mp hids).2.2
  have hi2l1 : i2 ∉ (pre ++ (n, i1) :: mid).map (fun e => e.2) := by
    intro hm
    exact hdisj hm (List.mem_cons_self _ _)
  have hi2post : i2 ∉ post.map (fun e => e.2) := by
    have := (List.nodup_append.mp hids).2.1
    exact (List.nodup_cons.mp this).1
  have hsubfinal := declareAll_ids_sublist post
    (declareAll [] (pre ++ (n, i1) :: mid)).1
  have hsubroot1 := declareAll_ids_sublist (pre ++ (n, i1) :: mid) []
  have hrootsub : ∀ i, i ∈ programNodeIds
      (declareAll [] (pre ++ (n, i1) :: mid)).1 →
      i ∈ (pre ++ (n, i1) :: mid).map (fun e => e.2) := by
    intro i hi
    have := hsubroot1.subset hi
    simpa [programNodeIds] using this
  refine ⟨?_, ?_, ?_, ?_⟩
  · rw [List.count_append, hcountl1, List.count_append, hcountpost]
    simp
  · rw [declareAll_lookup, hroot1]
  · intro hm
    have := hsubfinal.subset hm
    rcases List.mem_append.mp this with h1 | h2
    · exact hi2l1 (hrootsub i2 h1)
    · exact hi2post h2
  · intro deps body hclosed
    have hnodupfinal : (programNodeIds
        (declareAll (declareAll [] (pre ++ (n, i1) :: mid)).1 post).1).Nodup := by
      have hmid1 : (programNodeIds (declareAll [] (pre ++ (n, i1) :: mid)).1 ++
          post.map fun e => e.2).Sublist
          (((pre ++ (n, i1) :: mid).map fun e => e.2) ++
            i2 :: (post.map fun e => e.2)) := by
        refine List.Sublist.append ?_ ?_
        · have := hsubroot1
          simpa [programNodeIds] using this
        · exact List.sublist_cons_self _ _
      have hfin := hsubfinal.trans hmid1
      exact hfin.nodup hids
    exact bindProgram_terminates deps body _ hnodupfinal hclosed

/-! ## Object-constructor typing (C6) -/

/-- The literal-string-key test of the typing loop
(`item.Key.(*LiteralValueExpression)` plus `Value.IsString()`), as the
name it extracts. -/
def keyLitName : BExpr → Option String
  | .literalValue (.stringV s) _ => some s
  | _ => none

/-- Lookup in an object type's property list. -/
def lookupProp (props : List (String × Ty)) (s : String) : Option Ty :=
  (props.find? fun e => e.1 = s).map fun e => e.2

theorem lookupProp_insertProp_same :
    ∀ (props : List (String × Ty)) (s : String) (t : Ty),
      lookupProp (insertProp props s t) s = some t := by
  intro props
  induction props with
  | nil => intro s t; simp [insertProp, lookupProp, List.find?_cons]
  | cons e rest ih =>
    intro s t
    obtain ⟨n, t0⟩ := e
    simp only [insertProp]
    by_cases hn : n = s
    · rw [if_pos hn]
      simp [lookupProp, List.find?_cons, hn]
    · rw [if_neg hn]
      simp only [lookupProp, List.find?_cons]
      simp only [hn, decide_False]
      exact ih s t

theorem lookupProp_insertProp_other :
    ∀ (props : List (String × Ty)) (s s' : String) (t : Ty), s' ≠ s →
      lookupProp (insertProp props s t) s' = lookupProp props s' := by
  intro props
  induction props with
  | nil =>
    intro s s' t h
    have hss : ¬(s = s') := fun he => h he.symm
    simp [insertProp, lookupProp, List.find?_cons, hss]
  | cons e rest ih =>
    intro s s' t h
    obtain ⟨n, t0⟩ := e
    simp only [insertProp]
    by_cases hn : n = s
    · rw [if_pos hn]
      subst hn
      have hns : ¬(n = s') := fun he => h he.symm
      simp [lookupProp, List.find?_cons, hns]
    · rw [if_neg hn]
      simp only [lookupProp, List.find?_cons]
      by_cases hns : n = s'
      · simp [hns]
      · simp only [hns, decide_False]
        exact ih s s' t h

theorem list_find?_append {α : Type} (p : α → Bool) :
    ∀ (l1 l2 : List α), (l1 ++ l2).find? p =
      match l1.find? p with
      | some a => some a
      | none => l2.find? p := by
  intro l1
  induction l1 with
  | nil => intro l2; rfl
  | cons a l1 ih =>
    intro l2
    rw [List.cons_append]
    by_cases ha : p a
    · simp [List.find?_cons, ha]
    · simp only [List.find?_cons, Bool.not_eq_true] at ha ⊢
      simp [ha, ih]

/-- The typing loop on one bound item, expressed through the
literal-string-key test. -/
theorem objectConsTypeAux_cons (k v : BExpr) (rest : List (BExpr × BExpr))
    (props : List (String × Ty)) :
    objectConsTypeAux ((k, v) :: rest) props =
      match keyLitName k with
      | some s => objectConsTypeAux rest (insertProp props s v.typ)
      | none => .any := by
  cases k with
  | literalValue pv t => cases pv <;> rfl
  | objectConsE items t => rfl
  | functionCallE args t => rfl
  | scopeTraversalE t => rfl
  | errorE t => rfl

/-- Any computed (non-literal-string) key makes the whole constructor type
`Any`. -/
theorem objectConsTypeAux_any :
    ∀ (items : List (BExpr × BExpr)) (props : List (String × Ty)),
      (∃ p ∈ items, keyLitName p.1 = none) →
      objectConsTypeAux items props = .any := by
  intro items
  induction items with
  | nil => intro props h; obtain ⟨p, hp, _⟩ := h; cases hp
  | cons kv rest ih =>
    intro props h
    obtain ⟨k, v⟩ := kv
    rw [objectConsTypeAux_cons]
    obtain ⟨p, hp, hnone⟩ := h
    rcases List.mem_cons.mp hp with rfl | hp'
    · rw [hnone]
    · cases hk : keyLitName k with
      | none => rfl
      | some s => exact ih (insertProp props s v.typ) ⟨p, hp', hnone⟩

/-- With every key a literal string, the constructor types as the object
whose properties are the literal key names, the last occurrence of a
repeated name winning (Go map assignment). -/
theorem objectConsTypeAux_all_lit :
    ∀ (items : List (BExpr × BExpr)) (props : List (String × Ty)),
      (∀ p ∈ items, (keyLitName p.1).isSome) →
      ∃ props', objectConsTypeAux items props = .object props' ∧
        ∀ s, lookupProp props' s =
          match items.reverse.find? (fun p => keyLitName p.1 == some s) with
          | some p => some p.2.typ
          | none => lookupProp props s := by
  intro items
  induction items with
  | nil =>
    intro props _
    exact ⟨props, rfl, fun s => rfl⟩
  | cons kv rest ih =>
    intro props hall
    obtain ⟨k, v⟩ := kv
    have hk := hall (k, v) (List.mem_cons_self _ _)
    cases hks : keyLitName k with
    | none => rw [hks] at hk; cases hk
    | some s0 =>
      rw [objectConsTypeAux_cons, hks]
      obtain ⟨props', h1, h2⟩ := ih (insertProp props s0 v.typ)
        (fun p hp => hall p (List.mem_cons_of_mem _ hp))
      refine ⟨props', h1, fun s => ?_⟩
      rw [h2 s, List.reverse_cons, list_find?_append]
      cases hfind : rest.reverse.find? (fun p => keyLitName p.1 == some s) with
      | some p => rfl
      | none =>
        simp only [List.find?_cons, List.find?_nil]
        by_cases hss : s0 = s
        · subst hss
          simp only [hks, beq_self_eq_true]
          exact lookupProp_insertProp_same props s0 v.typ
        · have : (keyLitName (k, v).1 == some s) = false := by
            simp [hks, hss]
          simp only [this]
          exact lookupProp_insertProp_other props s0 s v.typ
            (fun he => hss he.symm)

/-- C6: for every object-constructor expression, if every key binds to a
literal string expression the bound expression's type is the structural
object type mapping those literal key names to the corresponding
value-expression types (the last occurrence of a repeated name winning,
as Go map assignment does); if any key binds to a non-literal (computed)
expression the whole constructor types as `Any`. -/
theorem bindObjectConsExpression_typing (nodes : List (String × Ty))
    (items : SynItems) :
    ((∀ p ∈ (bindObjectItems nodes items).1, (keyLitName p.1).isSome) →
      ∃ props, (bindObjectConsExpression nodes items).1 =
          .objectConsE (bindObjectItems nodes items).1 (.object props) ∧
        ∀ s, lookupProp props s =
          match (bindObjectItems nodes items).1.reverse.find?
              (fun p => keyLitName p.1 == some s) with
          | some p => some p.2.typ
          | none => none) ∧
    ((∃ p ∈ (bindObjectItems nodes items).1, keyLitName p.1 = none) →
      (bindObjectConsExpression nodes items).1 =
        .objectConsE (bindObjectItems nodes items).1 .any) := by
  constructor
  · intro hall
    obtain ⟨props', h1, h2⟩ :=
      objectConsTypeAux_all_lit (bindObjectItems nodes items).1 [] hall
    refine ⟨props', ?_, fun s => ?_⟩
    · show BExpr.objectConsE (bindObjectItems nodes items).1
        (objectConsType (bindObjectItems nodes items).1) = _
      rw [objectConsType, h1]
    · rw [h2 s]
      cases (bindObjectItems nodes items).1.reverse.find?
          (fun p => keyLitName p.1 == some s) with
      | some p => rfl
      | none => rfl
  · intro hsome
    show BExpr.objectConsE (bindObjectItems nodes items).1
      (objectConsType (bindObjectItems nodes items).1) = _
    rw [objectConsType, objectConsTypeAux_any _ [] hsome]

theorem bindObjectConsExpression_typing_witness :
    ∃ props, (bindObjectConsExpression []
        (.cons (.literal (.stringV "k")) (.literal (.numberV 3)) .nil)).1 =
      .objectConsE (bindObjectItems []
        (.cons (.literal (.stringV "k")) (.literal (.numberV 3)) .nil)).1
        (.object props) ∧
      ∀ s, lookupProp props s =
        match (bindObjectItems []
            (.cons (.literal (.stringV "k")) (.literal (.numberV 3)) .nil)).1.reverse.find?
            (fun p => keyLitName p.1 == some s) with
        | some p => some p.2.typ
        | none => none :=
  (bindObjectConsExpression_typing []
    (.cons (.literal (.stringV "k")) (.literal (.numberV 3)) .nil)).1
    (by decide)

theorem duplicate_declaration_one_diagnostic_first_wins_witness :
    ((declareAll [] [("a", 0), ("a", 1)]).2.count (Diag.alreadyDeclared "a") = 1) ∧
    scopeBindReference (declareAll [] [("a", 0), ("a", 1)]).1 "a" = some 0 ∧
    (1 : Nat) ∉ programNodeIds (declareAll [] [("a", 0), ("a", 1)]).1 ∧
    (∀ (deps : Nat → List Nat) (body : Nat → List Diag),
      (∀ y ∈ programNodeIds (declareAll [] [("a", 0), ("a", 1)]).1,
        ∀ u ∈ deps y, u ∈ programNodeIds (declareAll [] [("a", 0), ("a", 1)]).1) →
      ∃ r, bindProgramNodes deps body
        ((programNodeIds (declareAll [] [("a", 0), ("a", 1)]).1).length + 1)
        (programNodeIds (declareAll [] [("a", 0), ("a", 1)]).1) = some r) :=
  duplicate_declaration_one_diagnostic_first_wins [] [] [] "a" 0 1
    (by decide) (by decide) (by decide) (by decide)

end PulumiHcl2
